import Mathlib

/-!
Shallow embedding of the rust-base64 codec (src/lib.rs, src/line_wrap.rs)
together with proofs about its encoder, decoder and line-wrap transformer.

Machine integers are modelled as `Nat`; `u8`/`u64` wrap-around is made
explicit with `% 256` / bit masks exactly where the source relies on it.
Checked arithmetic (`checked_add`, `checked_mul`) cannot overflow on `Nat`,
so it is modelled by the plain operations.  Byte buffers are `List Nat`;
in-place writes are modelled by positional updates (`List.set`).
-/

namespace B64

/-- Available encoding character sets (src/lib.rs `CharacterSet`). -/
inductive CharacterSet where
  | Standard
  | UrlSafe
deriving DecidableEq, Repr

/-- Line endings (src/lib.rs `LineEnding`). -/
inductive LineEnding where
  | LF
  | CRLF
deriving DecidableEq, Repr

/-- Byte length of a line ending (src/lib.rs `LineEnding::len`). -/
def LineEnding.len : LineEnding → Nat
  | .LF => 1
  | .CRLF => 2

/-- Line wrapping configuration (src/lib.rs `LineWrap`); wrap length is always > 0. -/
inductive LineWrap where
  | NoWrap
  | Wrap (width : Nat) (ending : LineEnding)
deriving DecidableEq, Repr

/-- Configuration parameters for base64 encoding (src/lib.rs `Config`). -/
structure Config where
  char_set : CharacterSet
  pad : Bool
  strip_whitespace : Bool
  line_wrap : LineWrap
deriving DecidableEq, Repr

/-- Constructor normalizing a zero wrap width to `NoWrap` (src/lib.rs `Config::new`). -/
def Config.new (char_set : CharacterSet) (pad strip_whitespace : Bool)
    (input_line_wrap : LineWrap) : Config :=
  let line_wrap := match input_line_wrap with
    | .Wrap 0 _ => LineWrap.NoWrap
    | _ => input_line_wrap
  ⟨char_set, pad, strip_whitespace, line_wrap⟩

/-- The `STANDARD` preset (src/lib.rs). -/
def STANDARD : Config := ⟨.Standard, true, false, .NoWrap⟩

/-- The `MIME` preset (src/lib.rs). -/
def MIME : Config := ⟨.Standard, true, true, .Wrap 76 .CRLF⟩

/-- The `URL_SAFE` preset (src/lib.rs). -/
def URL_SAFE : Config := ⟨.UrlSafe, true, false, .NoWrap⟩

/-- The `URL_SAFE_NO_PAD` preset (src/lib.rs). -/
def URL_SAFE_NO_PAD : Config := ⟨.UrlSafe, false, false, .NoWrap⟩

/-- Decoding errors (src/lib.rs `DecodeError`). -/
inductive DecodeError where
  | InvalidByte (offset : Nat) (byte : Nat)
  | InvalidLength
deriving DecidableEq, Repr

/-- Modelled from the spec: the file src/tables.rs is not present under src/.
Spec section 3 requires a 64-entry encode table per character set mapping
0..63 to printable ASCII, the standard set using the characters `+` and `/`.
This is the standard base64 alphabet A-Z, a-z, 0-9, `+`, `/` as byte values. -/
def STANDARD_ENCODE : List Nat :=
  [65, 66, 67, 68, 69, 70, 71, 72, 73, 74, 75, 76, 77, 78, 79, 80, 81, 82,
   83, 84, 85, 86, 87, 88, 89, 90,
   97, 98, 99, 100, 101, 102, 103, 104, 105, 106, 107, 108, 109, 110, 111,
   112, 113, 114, 115, 116, 117, 118, 119, 120, 121, 122,
   48, 49, 50, 51, 52, 53, 54, 55, 56, 57, 43, 47]

/-- Modelled from the spec: the file src/tables.rs is not present under src/.
Spec section 3: the URL safe character set uses `-` and `_` in place of the
final two characters of the standard alphabet. -/
def URL_SAFE_ENCODE : List Nat :=
  [65, 66, 67, 68, 69, 70, 71, 72, 73, 74, 75, 76, 77, 78, 79, 80, 81, 82,
   83, 84, 85, 86, 87, 88, 89, 90,
   97, 98, 99, 100, 101, 102, 103, 104, 105, 106, 107, 108, 109, 110, 111,
   112, 113, 114, 115, 116, 117, 118, 119, 120, 121, 122,
   48, 49, 50, 51, 52, 53, 54, 55, 56, 57, 45, 95]

/-- Modelled from the spec: the INVALID sentinel of the reverse tables in
src/tables.rs (a reserved value marking a byte as outside the alphabet,
distinct from every 6-bit value). -/
def INVALID_VALUE : Nat := 255

/-- Encode-table list for a character set (src/lib.rs `CharacterSet::encode_table`). -/
def CharacterSet.encList : CharacterSet → List Nat
  | .Standard => STANDARD_ENCODE
  | .UrlSafe => URL_SAFE_ENCODE

/-- Table lookup of a 6-bit value (indexing into the 64-entry encode table). -/
def CharacterSet.encode_table (cs : CharacterSet) : Nat → Nat :=
  fun i => cs.encList.getD i 0

/-- Modelled from the spec: the 256-entry reverse table of src/tables.rs.
Spec section 3 invariant: `decode_table[encode_table[v]] == v` for v in 0..64
and every non-alphabet byte maps to the INVALID sentinel. -/
def CharacterSet.decode_table (cs : CharacterSet) : Nat → Nat :=
  fun b => match cs.encList.findIdx? (fun a => a = b) with
    | some i => i
    | none => INVALID_VALUE

/-! ### Line wrapping (src/line_wrap.rs) -/

/-- Result of the line-wrap sizing computation (src/line_wrap.rs `LineWrapParameters`). -/
structure LineWrapParameters where
  lines_with_endings : Nat
  last_line_len : Nat
  total_full_wrapped_lines_len : Nat
  total_len : Nat
  total_line_endings_len : Nat
deriving DecidableEq, Repr

/-- Sizing for line wrapping (src/line_wrap.rs `line_wrap_parameters`).
Checked arithmetic in the source cannot overflow on `Nat`. -/
def line_wrap_parameters (input_len line_len : Nat) (line_ending : LineEnding) :
    LineWrapParameters :=
  let line_ending_len := line_ending.len
  if input_len ≤ line_len then
    ⟨0, input_len, 0, input_len, 0⟩
  else
    let p := if 0 < input_len % line_len then
        (input_len / line_len, input_len % line_len)
      else
        (input_len / line_len - 1, line_len)
    let num_lines_with_endings := p.1
    let last_line_length := p.2
    let single := line_len + line_ending_len
    let total_full := num_lines_with_endings * single
    ⟨num_lines_with_endings, last_line_length, total_full,
      total_full + last_line_length, num_lines_with_endings * line_ending_len⟩

/-- Consecutive positional writes into a byte buffer, starting at index `i`
(writes beyond the end of the buffer are dropped, as `List.set` is). -/
def writeSeq (l : List Nat) (i : Nat) : List Nat → List Nat
  | [] => l
  | v :: vs => writeSeq (l.set i v) (i + 1) vs

/-- Overlap-tolerant block move (`std::ptr::copy`): the source bytes are those
of the buffer before the write begins. -/
def copyWithin (l : List Nat) (src dst len : Nat) : List Nat :=
  writeSeq l dst ((l.drop src).take len)

/-- The bytes a line ending writes (src/line_wrap.rs, the `match line_ending` arm). -/
def LineEnding.bytes : LineEnding → List Nat
  | .LF => [10]
  | .CRLF => [13, 10]

/-- The full-line loop of src/line_wrap.rs `line_wrap`: iteration `line_num`
works on the line with `lines_before_this_line = lines_with_endings - 1 - line_num`,
so the recursion processes `lines_before` values `k-1, k-2, ..., 0`. -/
def line_wrap_lines (buf : List Nat) (line_len : Nat) (ending : List Nat)
    (e_len : Nat) : Nat → List Nat
  | 0 => buf
  | k + 1 =>
    let lb := k
    let buf1 := copyWithin buf (lb * line_len) (lb * line_len + lb * e_len) line_len
    let buf2 := writeSeq buf1 (lb * line_len + lb * e_len + line_len) ending
    line_wrap_lines buf2 line_len ending e_len k

/-- In-place line-wrap reflow (src/line_wrap.rs `line_wrap`).  Returns the
number of line-ending bytes written and the rewritten buffer.  The source's
entry assertion (buffer at least `total_len` long) becomes a hypothesis of
the theorems; the exit assertion equating the running count with
`total_line_endings_len` holds definitionally here. -/
def line_wrap (encoded_buf : List Nat) (input_len line_len : Nat)
    (line_ending : LineEnding) : Nat × List Nat :=
  let p := line_wrap_parameters input_len line_len line_ending
  let buf1 := copyWithin encoded_buf (p.lines_with_endings * line_len)
    p.total_full_wrapped_lines_len p.last_line_len
  let buf2 := line_wrap_lines buf1 line_len line_ending.bytes line_ending.len
    p.lines_with_endings
  (p.lines_with_endings * line_ending.len, buf2)

/-! ### Encoding (src/lib.rs) -/

/-- Big-endian 64-bit load of the first eight bytes (byteorder `BigEndian::read_u64`). -/
def read_u64_be (l : List Nat) : Nat :=
  l.getD 0 0 * 2 ^ 56 + l.getD 1 0 * 2 ^ 48 + l.getD 2 0 * 2 ^ 40 +
    l.getD 3 0 * 2 ^ 32 + l.getD 4 0 * 2 ^ 24 + l.getD 5 0 * 2 ^ 16 +
    l.getD 6 0 * 2 ^ 8 + l.getD 7 0

/-- The fast loop of `encode_to_slice`: while at least 8 input bytes remain
(`input_index <= last_fast_index`), read a big-endian u64, emit eight
characters from its top 48 bits, and advance by 6 bytes.  Returns the
emitted characters and the unconsumed suffix. -/
def encodeFastLoop (t : Nat → Nat) : List Nat → List Nat × List Nat
  | b0 :: b1 :: b2 :: b3 :: b4 :: b5 :: b6 :: b7 :: rest =>
    let c := read_u64_be (b0 :: b1 :: b2 :: b3 :: b4 :: b5 :: b6 :: b7 :: rest)
    let p := encodeFastLoop t (b6 :: b7 :: rest)
    ([t ((c >>> 58) &&& 63), t ((c >>> 52) &&& 63), t ((c >>> 46) &&& 63),
      t ((c >>> 40) &&& 63), t ((c >>> 34) &&& 63), t ((c >>> 28) &&& 63),
      t ((c >>> 22) &&& 63), t ((c >>> 16) &&& 63)] ++ p.1, p.2)
  | l => ([], l)

/-- The scalar 3-bytes-in/4-chars-out loop of `encode_to_slice`: runs while
`input_index < start_of_rem`, i.e. while more than `rem` bytes remain.  The
`u8` left shifts of the source wrap, hence the explicit `% 256`.  (When fewer
than 3 bytes remain the loop cannot run, since the remaining length is
congruent to `rem` modulo 3.) -/
def encodeSlowLoop (t : Nat → Nat) (rem : Nat) : List Nat → List Nat × List Nat
  | b0 :: b1 :: b2 :: rest =>
    if rem < rest.length + 3 then
      let p := encodeSlowLoop t rem rest
      ([t (b0 >>> 2), t ((((b0 <<< 4) % 256) ||| (b1 >>> 4)) &&& 63),
        t ((((b1 <<< 2) % 256) ||| (b2 >>> 6)) &&& 63), t (b2 &&& 63)] ++ p.1, p.2)
    else ([], b0 :: b1 :: b2 :: rest)
  | l => ([], l)

/-- Encode input bytes to base64 characters, unpadded and unwrapped
(src/lib.rs `encode_to_slice`).  The source writes sequentially through an
output pointer and returns the byte count; the model returns the written
bytes themselves. -/
def encode_to_slice (input : List Nat) (t : Nat → Nat) : List Nat :=
  let last_fast_index := input.length - 8
  let fast := if 0 < last_fast_index then encodeFastLoop t input else ([], input)
  let rem := input.length % 3
  let slow := encodeSlowLoop t rem fast.2
  let l := slow.2
  fast.1 ++ slow.1 ++
    (if rem = 2 then
      [t (l.getD 0 0 >>> 2),
       t ((((l.getD 0 0 <<< 4) % 256) ||| (l.getD 1 0 >>> 4)) &&& 63),
       t (((l.getD 1 0 <<< 2) % 256) &&& 63)]
    else if rem = 1 then
      [t (l.getD 0 0 >>> 2), t (((l.getD 0 0 <<< 4) % 256) &&& 63)]
    else [])

/-- Padding characters for an input of length `input_len`
(src/lib.rs `add_padding`; the source writes them into a slice and returns
the count, the model returns the written bytes). -/
def add_padding (input_len : Nat) : List Nat :=
  List.replicate ((3 - input_len % 3) % 3) 61

/-- Exact encoded size including padding and line wrapping
(src/lib.rs `encoded_size`; checked arithmetic cannot overflow on `Nat`). -/
def encoded_size (bytes_len : Nat) (config : Config) : Nat :=
  let rem := bytes_len % 3
  let complete_chunk_output := bytes_len / 3 * 4
  let encoded_len_no_wrap :=
    if 0 < rem then
      if config.pad then complete_chunk_output + 4
      else complete_chunk_output + (if rem = 1 then 2 else 3)
    else complete_chunk_output
  match config.line_wrap with
  | .NoWrap => encoded_len_no_wrap
  | .Wrap line_len line_ending =>
    (line_wrap_parameters encoded_len_no_wrap line_len line_ending).total_len

/-- Append the base64 encoding of `input` to `buf`
(src/lib.rs `encode_config_buf`).  The reserved-and-`set_len` region is
modelled as a zero-filled extension that the subsequent writes fill; the
final `set_len` keeps `orig_buf_len + output_bytes_written` bytes. -/
def encode_config_buf (input : List Nat) (config : Config) (buf : List Nat) :
    List Nat :=
  let sz := encoded_size input.length config
  let orig := buf.length
  let bb := buf ++ List.replicate sz 0
  let b64 := encode_to_slice input config.char_set.encode_table
  let bb1 := writeSeq bb orig b64
  let padding := if config.pad then add_padding input.length else []
  let bb2 := writeSeq bb1 (orig + b64.length) padding
  let wrappable := b64.length + padding.length
  match config.line_wrap with
  | .Wrap line_len line_end =>
    let r := line_wrap (bb2.drop orig) wrappable line_len line_end
    (bb2.take orig ++ r.2).take (orig + wrappable + r.1)
  | .NoWrap => bb2.take (orig + wrappable)

/-- Encode into a fresh buffer (src/lib.rs `encode_config`). -/
def encode_config (input : List Nat) (config : Config) : List Nat :=
  encode_config_buf input config []

/-- Encode with the default configuration (src/lib.rs `encode`). -/
def encode (input : List Nat) : List Nat :=
  encode_config input STANDARD

/-! ### Decoding (src/lib.rs) -/

/-- The whitespace bytes removed when `strip_whitespace` is set
(src/lib.rs, the byte string literal in `decode_config_buf`). -/
def whitespaceBytes : List Nat := [32, 10, 9, 13, 11, 12]

/-- The optional whitespace-stripping pass of `decode_config_buf`. -/
def stripInput (strip : Bool) (input : List Nat) : List Nat :=
  if strip then input.filter (fun b => !(whitespaceBytes.contains b)) else input

/-- Number of input bytes handled by the decode fast path: the input length
minus `trailing_bytes_to_skip`, which is 8 when the length is an exact
multiple of the chunk size and the remainder otherwise
(src/lib.rs `decode_config_buf`, saturating subtraction is `Nat` subtraction). -/
def length_of_full_chunks (n : Nat) : Nat :=
  n - (if n % 8 = 0 then 8 else n % 8)

/-- The eight bytes of a big-endian 64-bit store (byteorder `BigEndian::write_u64`). -/
def u64_be_bytes (x : Nat) : List Nat :=
  [x / 2 ^ 56 % 256, x / 2 ^ 48 % 256, x / 2 ^ 40 % 256, x / 2 ^ 32 % 256,
   x / 2 ^ 24 % 256, x / 2 ^ 16 % 256, x / 2 ^ 8 % 256, x % 256]

/-- The decode fast loop (src/lib.rs `decode_config_buf`): while
`input_index < length_of_full_chunks`, probe eight bytes of a big-endian
u64 load individually through the decode table; the first INVALID probe
stops with the offending absolute index, otherwise the packed accumulator
is stored as eight output bytes and both indices advance.  The error carries
the buffer as mutated so far (the source returns before truncating). -/
def decodeFastLoop (tbl : Nat → Nat) (ib : List Nat) (lofc : Nat)
    (bb : List Nat) (oi ii : Nat) : Except (List Nat × Nat) (List Nat × Nat) :=
  if ii < lofc then
    let c := read_u64_be (ib.drop ii)
    let m1 := tbl (c >>> 56)
    if m1 = INVALID_VALUE then .error (bb, ii) else
    let m2 := tbl ((c >>> 48) &&& 255)
    if m2 = INVALID_VALUE then .error (bb, ii + 1) else
    let m3 := tbl ((c >>> 40) &&& 255)
    if m3 = INVALID_VALUE then .error (bb, ii + 2) else
    let m4 := tbl ((c >>> 32) &&& 255)
    if m4 = INVALID_VALUE then .error (bb, ii + 3) else
    let m5 := tbl ((c >>> 24) &&& 255)
    if m5 = INVALID_VALUE then .error (bb, ii + 4) else
    let m6 := tbl ((c >>> 16) &&& 255)
    if m6 = INVALID_VALUE then .error (bb, ii + 5) else
    let m7 := tbl ((c >>> 8) &&& 255)
    if m7 = INVALID_VALUE then .error (bb, ii + 6) else
    let m8 := tbl (c &&& 255)
    if m8 = INVALID_VALUE then .error (bb, ii + 7) else
    let accum := (m1 <<< 58) ||| (m2 <<< 52) ||| (m3 <<< 46) ||| (m4 <<< 40) |||
      (m5 <<< 34) ||| (m6 <<< 28) ||| (m7 <<< 22) ||| (m8 <<< 16)
    decodeFastLoop tbl ib lofc (writeSeq bb oi (u64_be_bytes accum)) (oi + 6) (ii + 8)
  else .ok (bb, oi)
termination_by lofc - ii
decreasing_by omega

/-- The trailing-chunk scalar pass of `decode_config_buf`, processing the
0 to 8 leftover bytes left to right with the padding rules of the source:
a pad byte at quad position 0 or 1 is invalid at its own offset; a non-pad
byte after accepted padding is invalid at the first padding offset; other
bytes are decode-table probed and packed from the most significant end of a
64-bit register.  Returns the register and the morsel count. -/
def decodeTailLoop (tbl : Nat → Nat) (lofc : Nat) :
    List Nat → Nat → Nat → Nat → Nat → Nat → Except DecodeError (Nat × Nat)
  | [], _, leftover_bits, morsels_in_leftover, _, _ =>
    .ok (leftover_bits, morsels_in_leftover)
  | b :: rest, i, leftover_bits, morsels_in_leftover, padding_bytes, first_padding_index =>
    if b = 61 then
      if i % 4 < 2 then .error (.InvalidByte (lofc + i) b)
      else
        decodeTailLoop tbl lofc rest (i + 1) leftover_bits morsels_in_leftover
          (padding_bytes + 1) (if padding_bytes = 0 then i else first_padding_index)
    else if 0 < padding_bytes then .error (.InvalidByte (lofc + first_padding_index) 61)
    else
      let shift := 64 - (morsels_in_leftover + 1) * 6
      let m := tbl b
      if m = INVALID_VALUE then .error (.InvalidByte (lofc + i) b)
      else
        decodeTailLoop tbl lofc rest (i + 1) (leftover_bits ||| (m <<< shift))
          (morsels_in_leftover + 1) padding_bytes first_padding_index

/-- The morsel-count-to-bit-count match of `decode_config_buf`
(`leftover_bits_ready_to_append`); `none` models `return Err(InvalidLength)`.
The final arm is unreachable (the trailing chunk holds at most 8 bytes). -/
def morsel_bits : Nat → Option Nat
  | 0 => some 0
  | 1 => none
  | 2 => some 8
  | 3 => some 16
  | 4 => some 24
  | 5 => none
  | 6 => some 32
  | 7 => some 40
  | 8 => some 48
  | _ + 9 => some 0

/-- The final emission loop of `decode_config_buf`: push one byte from the
most significant end of the register for every 8 usable bits. -/
def emitLoop (leftover : Nat) (appended bits : Nat) : List Nat :=
  if appended < bits then
    ((leftover >>> (56 - appended)) % 256) :: emitLoop leftover (appended + 8) bits
  else []
termination_by bits - appended
decreasing_by omega

/-- Append the decoded bytes of `input` to `buffer`
(src/lib.rs `decode_config_buf`).  Returns the buffer as the call leaves it
together with the error, if any: `resize` extends with zeros, the fast loop
stores eight bytes per chunk, two overhang bytes are truncated after the
loop, and the trailing chunk's bytes are pushed at the end. -/
def decode_config_buf (input : List Nat) (config : Config) (buffer : List Nat) :
    List Nat × Option DecodeError :=
  let ib := stripInput config.strip_whitespace input
  let tbl := config.char_set.decode_table
  let lofc := length_of_full_chunks ib.length
  let starting := buffer.length
  let bb0 := buffer ++ List.replicate (lofc / 8 * 6 + 2) 0
  match decodeFastLoop tbl ib lofc bb0 starting 0 with
  | .error (bbe, bad) => (bbe, some (.InvalidByte bad (ib.getD bad 0)))
  | .ok (bb1, _) =>
    let bb2 := bb1.take (bb1.length - 2)
    match decodeTailLoop tbl lofc (ib.drop lofc) 0 0 0 0 0 with
    | .error e => (bb2, some e)
    | .ok (leftover, morsels) =>
      match morsel_bits morsels with
      | none => (bb2, some .InvalidLength)
      | some bits => (bb2 ++ emitLoop leftover 0 bits, none)

/-- Decode into a fresh buffer (src/lib.rs `decode_config`). -/
def decode_config (input : List Nat) (config : Config) :
    Except DecodeError (List Nat) :=
  match decode_config_buf input config [] with
  | (b, none) => .ok b
  | (_, some e) => .error e

/-- Decode with the default configuration (src/lib.rs `decode`). -/
def decode (input : List Nat) : Except DecodeError (List Nat) :=
  decode_config input STANDARD

/-! ### Reference forms used in statements and proofs

`encB64` restates the scalar encoding formulas of `encode_to_slice` as a
plain 3-byte chunk recursion; `wrapStream` restates line wrapping as a
split-into-lines recursion.  The theorems below prove the source's loops
equal to these forms. -/

/-- Chunked restatement of the scalar encoding formulas of `encode_to_slice`. -/
def encB64 (t : Nat → Nat) : List Nat → List Nat
  | b0 :: b1 :: b2 :: rest =>
    [t (b0 >>> 2), t ((((b0 <<< 4) % 256) ||| (b1 >>> 4)) &&& 63),
     t ((((b1 <<< 2) % 256) ||| (b2 >>> 6)) &&& 63), t (b2 &&& 63)] ++ encB64 t rest
  | [b0, b1] =>
    [t (b0 >>> 2), t ((((b0 <<< 4) % 256) ||| (b1 >>> 4)) &&& 63),
     t (((b1 <<< 2) % 256) &&& 63)]
  | [b0] => [t (b0 >>> 2), t (((b0 <<< 4) % 256) &&& 63)]
  | [] => []

/-- Content split into `w`-sized lines, every full line but the last followed
by the ending. -/
def wrapStream (w : Nat) (ending : List Nat) (content : List Nat) : List Nat :=
  if h : w = 0 ∨ content.length ≤ w then content
  else content.take w ++ ending ++ wrapStream w ending (content.drop w)
termination_by content.length
decreasing_by simp only [List.length_drop]; omega

/-- Characters contributed by a final partial chunk of the given size mod 3. -/
def encRemChars : Nat → Nat
  | 0 => 0
  | 1 => 2
  | _ => 3

/-! ### Bit-arithmetic bridging lemmas -/

theorem and63 (x : Nat) : x &&& 63 = x % 64 := by
  have h := Nat.and_pow_two_sub_one_eq_mod x 6
  norm_num at h
  exact h

theorem and255 (x : Nat) : x &&& 255 = x % 256 := by
  have h := Nat.and_pow_two_sub_one_eq_mod x 8
  norm_num at h
  exact h

theorem lor_disjoint {x y k : Nat} (hx : x % 2 ^ k = 0) (hy : y < 2 ^ k) :
    x ||| y = x + y := by
  obtain ⟨q, rfl⟩ := Nat.dvd_of_mod_eq_zero hx
  apply Nat.eq_of_testBit_eq
  intro i
  rw [Nat.testBit_or]
  rcases Nat.lt_or_ge i k with h | h
  · have h1 : Nat.testBit (2 ^ k * q) i = false := by
      have h2 := Nat.testBit_mod_two_pow (2 ^ k * q) k i
      rw [Nat.mul_mod_right] at h2
      simpa [h] using h2.symm
    have h3 : (2 ^ k * q + y) % 2 ^ k = y := by
      rw [Nat.mul_add_mod, Nat.mod_eq_of_lt hy]
    have h4 : Nat.testBit (2 ^ k * q + y) i = Nat.testBit y i := by
      have h5 := Nat.testBit_mod_two_pow (2 ^ k * q + y) k i
      rw [h3] at h5
      simpa [h] using h5.symm
    rw [h1, h4, Bool.false_or]
  · have h1 : Nat.testBit y i = false :=
      Nat.testBit_lt_two_pow (Nat.lt_of_lt_of_le hy (Nat.pow_le_pow_right (by omega) h))
    have h2 : (2 ^ k * q) >>> k = q := by
      rw [Nat.shiftRight_eq_div_pow]
      exact Nat.mul_div_cancel_left q (Nat.pos_pow_of_pos k (by omega))
    have h3 : (2 ^ k * q + y) >>> k = q := by
      rw [Nat.shiftRight_eq_div_pow, Nat.mul_add_div (Nat.pos_pow_of_pos k (by omega)) q y,
        Nat.div_eq_of_lt hy]
      omega
    have h4 : Nat.testBit (2 ^ k * q) i = Nat.testBit q (i - k) := by
      have h6 := Nat.testBit_shiftRight (2 ^ k * q) (i := k) (j := i - k)
      rw [h2] at h6
      rw [h6]
      congr 1
      omega
    have h5 : Nat.testBit (2 ^ k * q + y) i = Nat.testBit q (i - k) := by
      have h6 := Nat.testBit_shiftRight (2 ^ k * q + y) (i := k) (j := i - k)
      rw [h3] at h6
      rw [h6]
      congr 1
      omega
    rw [h1, h4, h5, Bool.or_false]

/-! ### Table facts (checked by evaluation over the finite tables) -/

theorem decode_encode_table (cs : CharacterSet) :
    ∀ v < 64, cs.decode_table (cs.encode_table v) = v := by
  cases cs <;> decide

theorem encode_table_ascii (cs : CharacterSet) :
    ∀ v < 64, cs.encode_table v < 128 := by
  cases cs <;> decide

theorem encode_table_ne_pad (cs : CharacterSet) :
    ∀ v < 64, cs.encode_table v ≠ 61 := by
  cases cs <;> decide

theorem encode_table_not_ws (cs : CharacterSet) :
    ∀ v < 64, whitespaceBytes.contains (cs.encode_table v) = false := by
  cases cs <;> decide

theorem decode_table_pad (cs : CharacterSet) : cs.decode_table 61 = 255 := by
  cases cs <;> decide

theorem decode_table_lt (cs : CharacterSet) (b : Nat)
    (h : cs.decode_table b ≠ INVALID_VALUE) : cs.decode_table b < 64 := by
  unfold CharacterSet.decode_table at h ⊢
  rcases hf : cs.encList.findIdx? (fun a => a = b) with _ | i
  · simp [hf] at h
  · have hlen := (List.findIdx?_eq_some_iff_findIdx_eq.mp hf).1
    have h64 : cs.encList.length = 64 := by cases cs <;> decide
    simp only []
    omega

/-! ### List helper lemmas -/

theorem take_add' (l : List Nat) (m n : Nat) :
    l.take (m + n) = l.take m ++ (l.drop m).take n := by
  induction m generalizing l with
  | zero => simp
  | succ m ih =>
    cases l with
    | nil => simp
    | cons a l =>
      simp only [Nat.succ_add, List.take_succ_cons, List.drop_succ_cons, List.cons_append]
      rw [ih]

theorem writeSeq_length (vs : List Nat) (l : List Nat) (i : Nat) :
    (writeSeq l i vs).length = l.length := by
  induction vs generalizing l i with
  | nil => rfl
  | cons v vs ih => simp [writeSeq, ih]

theorem writeSeq_eq (vs : List Nat) (l : List Nat) (i : Nat)
    (h : i + vs.length ≤ l.length) :
    writeSeq l i vs = l.take i ++ vs ++ l.drop (i + vs.length) := by
  induction vs generalizing l i with
  | nil => simp [writeSeq]
  | cons v vs ih =>
    have hlen : i + vs.length + 1 ≤ l.length := by
      simp only [List.length_cons] at h
      omega
    have hti : (l.take i).length = i := by
      rw [List.length_take]
      omega
    simp only [writeSeq]
    rw [ih (l.set i v) (i + 1) (by rw [List.length_set]; omega)]
    have hset : l.set i v = l.take i ++ v :: l.drop (i + 1) :=
      List.set_eq_take_cons_drop v (by omega)
    rw [hset]
    have htk : (l.take i ++ v :: l.drop (i + 1)).take (i + 1) = l.take i ++ [v] := by
      rw [take_add' _ i 1, List.take_left' hti, List.drop_left' hti]
      rfl
    have hdr : (l.take i ++ v :: l.drop (i + 1)).drop (i + 1 + vs.length) =
        l.drop (i + (vs.length + 1)) := by
      rw [show i + 1 + vs.length = i + (vs.length + 1) by omega,
        ← List.drop_drop, List.drop_left' hti]
      simp only [List.drop_succ_cons, List.drop_drop]
      congr 1
      omega
    rw [htk, hdr]
    simp

theorem writeSeq_take_of_le (vs : List Nat) (l : List Nat) (i j : Nat)
    (h : j ≤ i) : (writeSeq l i vs).take j = l.take j := by
  induction vs generalizing l i with
  | nil => rfl
  | cons v vs ih =>
    simp only [writeSeq]
    rw [ih (l.set i v) (i + 1) (by omega), List.set_take,
      List.set_eq_of_length_le (by rw [List.length_take]; omega)]

/-! ### Arithmetic of the 64-bit fast paths -/

theorem or_shl4 (x y : Nat) (hy : y < 256) :
    ((x <<< 4) % 256) ||| (y >>> 4) = ((x <<< 4) % 256) + (y >>> 4) := by
  apply lor_disjoint (k := 4)
  · simp only [Nat.shiftLeft_eq]
    omega
  · simp only [Nat.shiftRight_eq_div_pow]
    omega

theorem or_shl2 (x y : Nat) (hy : y < 256) :
    ((x <<< 2) % 256) ||| (y >>> 6) = ((x <<< 2) % 256) + (y >>> 6) := by
  apply lor_disjoint (k := 2)
  · simp only [Nat.shiftLeft_eq]
    omega
  · simp only [Nat.shiftRight_eq_div_pow]
    omega

theorem read_u64_fields (b0 b1 b2 b3 b4 b5 b6 b7 c : Nat) (rest : List Nat)
    (hc : c = read_u64_be (b0 :: b1 :: b2 :: b3 :: b4 :: b5 :: b6 :: b7 :: rest))
    (h0 : b0 < 256) (h1 : b1 < 256) (h2 : b2 < 256) (h3 : b3 < 256)
    (h4 : b4 < 256) (h5 : b5 < 256) (h6 : b6 < 256) (h7 : b7 < 256) :
    c >>> 56 = b0 ∧ (c >>> 48) &&& 255 = b1 ∧ (c >>> 40) &&& 255 = b2 ∧
    (c >>> 32) &&& 255 = b3 ∧ (c >>> 24) &&& 255 = b4 ∧ (c >>> 16) &&& 255 = b5 ∧
    (c >>> 8) &&& 255 = b6 ∧ c &&& 255 = b7 := by
  subst hc
  simp only [read_u64_be, List.getD_cons_zero, List.getD_cons_succ,
    Nat.shiftRight_eq_div_pow, and255]
  norm_num
  all_goals omega

theorem encode_chunk_fields (b0 b1 b2 b3 b4 b5 b6 b7 c : Nat) (rest : List Nat)
    (hc : c = read_u64_be (b0 :: b1 :: b2 :: b3 :: b4 :: b5 :: b6 :: b7 :: rest))
    (h0 : b0 < 256) (h1 : b1 < 256) (h2 : b2 < 256) (h3 : b3 < 256)
    (h4 : b4 < 256) (h5 : b5 < 256) (h6 : b6 < 256) (h7 : b7 < 256) :
    (c >>> 58) &&& 63 = b0 >>> 2 ∧
    (c >>> 52) &&& 63 = (((b0 <<< 4) % 256) ||| (b1 >>> 4)) &&& 63 ∧
    (c >>> 46) &&& 63 = (((b1 <<< 2) % 256) ||| (b2 >>> 6)) &&& 63 ∧
    (c >>> 40) &&& 63 = b2 &&& 63 ∧
    (c >>> 34) &&& 63 = b3 >>> 2 ∧
    (c >>> 28) &&& 63 = (((b3 <<< 4) % 256) ||| (b4 >>> 4)) &&& 63 ∧
    (c >>> 22) &&& 63 = (((b4 <<< 2) % 256) ||| (b5 >>> 6)) &&& 63 ∧
    (c >>> 16) &&& 63 = b5 &&& 63 := by
  subst hc
  rw [or_shl4 b0 b1 h1, or_shl2 b1 b2 h2, or_shl4 b3 b4 h4, or_shl2 b4 b5 h5]
  simp only [read_u64_be, List.getD_cons_zero, List.getD_cons_succ,
    Nat.shiftRight_eq_div_pow, Nat.shiftLeft_eq, and63]
  norm_num
  all_goals omega

theorem accum_eq (m1 m2 m3 m4 m5 m6 m7 m8 : Nat)
    (h1 : m1 < 64) (h2 : m2 < 64) (h3 : m3 < 64) (h4 : m4 < 64)
    (h5 : m5 < 64) (h6 : m6 < 64) (h7 : m7 < 64) (h8 : m8 < 64) :
    (m1 <<< 58) ||| (m2 <<< 52) ||| (m3 <<< 46) ||| (m4 <<< 40) ||| (m5 <<< 34) |||
      (m6 <<< 28) ||| (m7 <<< 22) ||| (m8 <<< 16) =
    m1 * 2 ^ 58 + m2 * 2 ^ 52 + m3 * 2 ^ 46 + m4 * 2 ^ 40 + m5 * 2 ^ 34 +
      m6 * 2 ^ 28 + m7 * 2 ^ 22 + m8 * 2 ^ 16 := by
  simp only [Nat.shiftLeft_eq]
  have e1 : m1 * 2 ^ 58 ||| m2 * 2 ^ 52 = m1 * 2 ^ 58 + m2 * 2 ^ 52 :=
    lor_disjoint (k := 58) (by omega) (by omega)
  rw [e1]
  have e2 : (m1 * 2 ^ 58 + m2 * 2 ^ 52) ||| m3 * 2 ^ 46 =
      m1 * 2 ^ 58 + m2 * 2 ^ 52 + m3 * 2 ^ 46 :=
    lor_disjoint (k := 52) (by omega) (by omega)
  rw [e2]
  have e3 : (m1 * 2 ^ 58 + m2 * 2 ^ 52 + m3 * 2 ^ 46) ||| m4 * 2 ^ 40 =
      m1 * 2 ^ 58 + m2 * 2 ^ 52 + m3 * 2 ^ 46 + m4 * 2 ^ 40 :=
    lor_disjoint (k := 46) (by omega) (by omega)
  rw [e3]
  have e4 : (m1 * 2 ^ 58 + m2 * 2 ^ 52 + m3 * 2 ^ 46 + m4 * 2 ^ 40) ||| m5 * 2 ^ 34 =
      m1 * 2 ^ 58 + m2 * 2 ^ 52 + m3 * 2 ^ 46 + m4 * 2 ^ 40 + m5 * 2 ^ 34 :=
    lor_disjoint (k := 40) (by omega) (by omega)
  rw [e4]
  have e5 : (m1 * 2 ^ 58 + m2 * 2 ^ 52 + m3 * 2 ^ 46 + m4 * 2 ^ 40 + m5 * 2 ^ 34) |||
      m6 * 2 ^ 28 =
      m1 * 2 ^ 58 + m2 * 2 ^ 52 + m3 * 2 ^ 46 + m4 * 2 ^ 40 + m5 * 2 ^ 34 + m6 * 2 ^ 28 :=
    lor_disjoint (k := 34) (by omega) (by omega)
  rw [e5]
  have e6 : (m1 * 2 ^ 58 + m2 * 2 ^ 52 + m3 * 2 ^ 46 + m4 * 2 ^ 40 + m5 * 2 ^ 34 +
      m6 * 2 ^ 28) ||| m7 * 2 ^ 22 =
      m1 * 2 ^ 58 + m2 * 2 ^ 52 + m3 * 2 ^ 46 + m4 * 2 ^ 40 + m5 * 2 ^ 34 +
        m6 * 2 ^ 28 + m7 * 2 ^ 22 :=
    lor_disjoint (k := 28) (by omega) (by omega)
  rw [e6]
  have e7 : (m1 * 2 ^ 58 + m2 * 2 ^ 52 + m3 * 2 ^ 46 + m4 * 2 ^ 40 + m5 * 2 ^ 34 +
      m6 * 2 ^ 28 + m7 * 2 ^ 22) ||| m8 * 2 ^ 16 =
      m1 * 2 ^ 58 + m2 * 2 ^ 52 + m3 * 2 ^ 46 + m4 * 2 ^ 40 + m5 * 2 ^ 34 +
        m6 * 2 ^ 28 + m7 * 2 ^ 22 + m8 * 2 ^ 16 :=
    lor_disjoint (k := 22) (by omega) (by omega)
  rw [e7]

theorem decode_chunk_bytes (b0 b1 b2 b3 b4 b5 : Nat)
    (h0 : b0 < 256) (h1 : b1 < 256) (h2 : b2 < 256) (h3 : b3 < 256)
    (h4 : b4 < 256) (h5 : b5 < 256) :
    u64_be_bytes ((b0 >>> 2) * 2 ^ 58 +
      ((((b0 <<< 4) % 256) ||| (b1 >>> 4)) &&& 63) * 2 ^ 52 +
      ((((b1 <<< 2) % 256) ||| (b2 >>> 6)) &&& 63) * 2 ^ 46 +
      (b2 &&& 63) * 2 ^ 40 + (b3 >>> 2) * 2 ^ 34 +
      ((((b3 <<< 4) % 256) ||| (b4 >>> 4)) &&& 63) * 2 ^ 28 +
      ((((b4 <<< 2) % 256) ||| (b5 >>> 6)) &&& 63) * 2 ^ 22 +
      (b5 &&& 63) * 2 ^ 16) = [b0, b1, b2, b3, b4, b5, 0, 0] := by
  rw [or_shl4 b0 b1 h1, or_shl2 b1 b2 h2, or_shl4 b3 b4 h4, or_shl2 b4 b5 h5]
  simp only [u64_be_bytes, Nat.shiftRight_eq_div_pow, Nat.shiftLeft_eq, and63,
    List.cons.injEq, and_true]
  norm_num
  all_goals omega

theorem writeSeq_self_prefix (l : List Nat) (n : Nat) :
    writeSeq l 0 (l.take n) = l := by
  rw [writeSeq_eq _ _ _ (by simp)]
  simp only [List.take_zero, List.nil_append, List.length_take, Nat.zero_add]
  rcases Nat.le_total n l.length with h | h
  · rw [Nat.min_eq_left h, List.take_append_drop]
  · rw [Nat.min_eq_right h, List.drop_length, List.append_nil, List.take_of_length_le h]

/-! ### The encoder loops compute the chunked reference form -/

theorem encB64_length (t : Nat → Nat) :
    ∀ l : List Nat, (encB64 t l).length = 4 * (l.length / 3) + encRemChars (l.length % 3)
  | b0 :: b1 :: b2 :: rest => by
    have ih := encB64_length t rest
    have h3 : (rest.length + 1 + 1 + 1) % 3 = rest.length % 3 := by omega
    have h4 : (rest.length + 1 + 1 + 1) / 3 = rest.length / 3 + 1 := by omega
    simp only [encB64, List.length_append, List.length_cons, List.length_nil, ih, h3, h4]
    omega
  | [b0, b1] => by simp [encB64, encRemChars]
  | [b0] => by simp [encB64, encRemChars]
  | [] => by simp [encB64, encRemChars]

theorem encB64_append (t : Nat → Nat) :
    ∀ a b : List Nat, a.length % 3 = 0 →
      encB64 t (a ++ b) = encB64 t a ++ encB64 t b
  | [], b, _ => by simp [encB64]
  | [x], b, h => by simp at h
  | [x, y], b, h => by simp at h
  | x :: y :: z :: rest, b, h => by
    have ih := encB64_append t rest b (by simp [List.length_cons] at h; omega)
    simp only [List.cons_append, encB64, List.append_eq, ih, List.append_assoc]

theorem encB64_mem (t : Nat → Nat) :
    ∀ l : List Nat, (∀ b ∈ l, b < 256) →
      ∀ c ∈ encB64 t l, ∃ v, v < 64 ∧ c = t v
  | b0 :: b1 :: b2 :: rest, h256 => by
    have ih := encB64_mem t rest (fun b hb => h256 b (by simp [hb]))
    have hb0 : b0 < 256 := h256 b0 (by simp)
    intro c hc
    simp only [encB64, List.cons_append, List.nil_append, List.mem_cons] at hc
    rcases hc with rfl | rfl | rfl | rfl | hc
    · exact ⟨b0 >>> 2, by simp only [Nat.shiftRight_eq_div_pow]; omega, rfl⟩
    · exact ⟨_, by rw [and63]; omega, rfl⟩
    · exact ⟨_, by rw [and63]; omega, rfl⟩
    · exact ⟨_, by rw [and63]; omega, rfl⟩
    · exact ih c hc
  | [b0, b1], h256 => by
    have hb0 : b0 < 256 := h256 b0 (by simp)
    intro c hc
    simp only [encB64, List.mem_cons] at hc
    rcases hc with rfl | rfl | rfl | hc
    · exact ⟨b0 >>> 2, by simp only [Nat.shiftRight_eq_div_pow]; omega, rfl⟩
    · exact ⟨_, by rw [and63]; omega, rfl⟩
    · exact ⟨_, by rw [and63]; omega, rfl⟩
    · simp at hc
  | [b0], h256 => by
    have hb0 : b0 < 256 := h256 b0 (by simp)
    intro c hc
    simp only [encB64, List.mem_cons] at hc
    rcases hc with rfl | rfl | hc
    · exact ⟨b0 >>> 2, by simp only [Nat.shiftRight_eq_div_pow]; omega, rfl⟩
    · exact ⟨_, by rw [and63]; omega, rfl⟩
    · simp at hc
  | [], _ => by intro c hc; simp [encB64] at hc

theorem encode_slow_phase (t : Nat → Nat) (r : Nat) :
    ∀ l : List Nat, l.length % 3 = r →
      (encodeSlowLoop t r l).1 ++
        (if r = 2 then
          [t ((encodeSlowLoop t r l).2.getD 0 0 >>> 2),
           t (((((encodeSlowLoop t r l).2.getD 0 0 <<< 4) % 256) |||
              ((encodeSlowLoop t r l).2.getD 1 0 >>> 4)) &&& 63),
           t ((((encodeSlowLoop t r l).2.getD 1 0 <<< 2) % 256) &&& 63)]
        else if r = 1 then
          [t ((encodeSlowLoop t r l).2.getD 0 0 >>> 2),
           t ((((encodeSlowLoop t r l).2.getD 0 0 <<< 4) % 256) &&& 63)]
        else []) = encB64 t l
  | b0 :: b1 :: b2 :: rest, hl => by
    have hr : r < 3 := by omega
    have hc : r < rest.length + 3 := by omega
    have ih := encode_slow_phase t r rest (by
      simp only [List.length_cons] at hl
      omega)
    simp only [encodeSlowLoop, if_pos hc, List.append_assoc, List.cons_append,
      List.nil_append]
    simp only [encB64]
    rw [ih]
    rfl
  | [b0, b1], hl => by
    have hr : r = 2 := by simpa using hl.symm
    subst hr
    simp [encodeSlowLoop, encB64]
  | [b0], hl => by
    have hr : r = 1 := by simpa using hl.symm
    subst hr
    simp [encodeSlowLoop, encB64]
  | [], hl => by
    have hr : r = 0 := by simpa using hl.symm
    subst hr
    simp [encodeSlowLoop, encB64]

theorem encodeFastLoop_spec (t : Nat → Nat) :
    ∀ l : List Nat, (∀ b ∈ l, b < 256) →
      (encodeFastLoop t l).1 ++ encB64 t (encodeFastLoop t l).2 = encB64 t l ∧
      (encodeFastLoop t l).2.length % 3 = l.length % 3
  | b0 :: b1 :: b2 :: b3 :: b4 :: b5 :: b6 :: b7 :: rest, h256 => by
    have ih := encodeFastLoop_spec t (b6 :: b7 :: rest)
      (fun b hb => h256 b (by simp only [List.mem_cons] at hb ⊢; tauto))
    obtain ⟨f1, f2, f3, f4, f5, f6, f7, f8⟩ :=
      encode_chunk_fields b0 b1 b2 b3 b4 b5 b6 b7 _ rest rfl
        (h256 b0 (by simp)) (h256 b1 (by simp)) (h256 b2 (by simp))
        (h256 b3 (by simp)) (h256 b4 (by simp)) (h256 b5 (by simp))
        (h256 b6 (by simp)) (h256 b7 (by simp))
    constructor
    · simp only [encodeFastLoop]
      conv_rhs => rw [show b0 :: b1 :: b2 :: b3 :: b4 :: b5 :: b6 :: b7 :: rest =
        [b0, b1, b2, b3, b4, b5] ++ (b6 :: b7 :: rest) from rfl]
      rw [encB64_append t [b0, b1, b2, b3, b4, b5] (b6 :: b7 :: rest) (by simp)]
      rw [← ih.1]
      simp only [encB64, List.cons_append, List.nil_append, List.append_assoc]
      rw [f1, f2, f3, f4, f5, f6, f7, f8]
    · simp only [encodeFastLoop]
      have h2 := ih.2
      simp only [List.length_cons] at h2 ⊢
      omega
  | [], _ => by simp [encodeFastLoop]
  | [b0], _ => by simp [encodeFastLoop]
  | [b0, b1], _ => by simp [encodeFastLoop]
  | [b0, b1, b2], _ => by simp [encodeFastLoop]
  | [b0, b1, b2, b3], _ => by simp [encodeFastLoop]
  | [b0, b1, b2, b3, b4], _ => by simp [encodeFastLoop]
  | [b0, b1, b2, b3, b4, b5], _ => by simp [encodeFastLoop]
  | [b0, b1, b2, b3, b4, b5, b6], _ => by simp [encodeFastLoop]

theorem encode_to_slice_eq (input : List Nat) (t : Nat → Nat)
    (h256 : ∀ b ∈ input, b < 256) :
    encode_to_slice input t = encB64 t input := by
  unfold encode_to_slice
  by_cases hl : 0 < input.length - 8
  · obtain ⟨hfast, hmod⟩ := encodeFastLoop_spec t input h256
    have hslow := encode_slow_phase t (input.length % 3)
      (encodeFastLoop t input).2 hmod
    simp only [if_pos hl]
    rw [List.append_assoc, hslow, hfast]
  · have hslow := encode_slow_phase t (input.length % 3) input rfl
    simp only [if_neg hl]
    rw [List.append_assoc]
    exact hslow

/-! ### The in-place reflow computes the wrapped stream -/

theorem wrapStream_le (w : Nat) (eb c : List Nat) (h : c.length ≤ w ∨ w = 0) :
    wrapStream w eb c = c := by
  unfold wrapStream
  rw [dif_pos (by tauto)]

theorem wrapStream_gt (w : Nat) (eb c : List Nat) (hw : 0 < w) (h : w < c.length) :
    wrapStream w eb c = c.take w ++ eb ++ wrapStream w eb (c.drop w) := by
  conv_lhs => unfold wrapStream
  rw [dif_neg (by omega)]

theorem wrapStream_length (w : Nat) (hw : 0 < w) (eb : List Nat) :
    ∀ num (c : List Nat), c.length ≤ num * w + w → (num * w < c.length ∨ num = 0) →
      (wrapStream w eb c).length = c.length + num * eb.length := by
  intro num
  induction num with
  | zero =>
    intro c h1 _
    rw [wrapStream_le w eb c (Or.inl (by omega))]
    omega
  | succ m ih =>
    intro c h1 h2
    rcases h2 with h2 | h2
    · have hgt : w < c.length := by
        have : w ≤ (m + 1) * w := by
          calc w = 1 * w := by omega
          _ ≤ (m + 1) * w := Nat.mul_le_mul_right w (by omega)
        omega
      rw [wrapStream_gt w eb c hw hgt]
      have hrec := ih (c.drop w) (by
          rw [List.length_drop]
          have : (m + 1) * w = m * w + w := by ring
          omega)
        (by
          rw [List.length_drop]
          left
          have : (m + 1) * w = m * w + w := by ring
          omega)
      simp only [List.length_append, List.length_take, hrec, List.length_drop]
      have : (m + 1) * eb.length = m * eb.length + eb.length := by ring
      omega
    · omega

theorem lwp_fields (n w : Nat) (e : LineEnding) (hw : 0 < w) (hn : w < n) :
    (line_wrap_parameters n w e).lines_with_endings * w +
        (line_wrap_parameters n w e).last_line_len = n ∧
    0 < (line_wrap_parameters n w e).last_line_len ∧
    (line_wrap_parameters n w e).last_line_len ≤ w ∧
    (line_wrap_parameters n w e).total_full_wrapped_lines_len =
      (line_wrap_parameters n w e).lines_with_endings * (w + e.len) ∧
    (line_wrap_parameters n w e).total_len =
      (line_wrap_parameters n w e).total_full_wrapped_lines_len +
        (line_wrap_parameters n w e).last_line_len ∧
    (line_wrap_parameters n w e).total_line_endings_len =
      (line_wrap_parameters n w e).lines_with_endings * e.len := by
  have hd : n / w * w + n % w = n := by
    rw [Nat.mul_comm]
    exact Nat.div_add_mod n w
  simp only [line_wrap_parameters, if_neg (by omega : ¬ n ≤ w)]
  by_cases hm : 0 < n % w
  · simp only [if_pos hm]
    refine ⟨hd, by omega, by have := Nat.mod_lt n hw; omega, by trivial, by trivial, by trivial⟩
  · simp only [if_neg hm]
    have hq : 2 ≤ n / w := by
      by_contra hq
      have : n / w * w ≤ 1 * w := Nat.mul_le_mul_right w (by omega)
      omega
    have hsub : (n / w - 1) * w = n / w * w - w := by
      rw [Nat.sub_mul, Nat.one_mul]
    have hle : w ≤ n / w * w := by
      calc w = 1 * w := by omega
      _ ≤ n / w * w := Nat.mul_le_mul_right w (by omega)
    exact ⟨by omega, by omega, by omega, by trivial, by trivial, by trivial⟩

theorem wrap_lines_invariant (c : List Nat) (w : Nat) (hw : 0 < w) (eb : List Nat)
    (num : Nat) (hn1 : num * w < c.length) :
    ∀ k, k ≤ num → ∀ junk slack : List Nat, junk.length = k * eb.length →
      line_wrap_lines
          (c.take (k * w) ++ junk ++ wrapStream w eb (c.drop (k * w)) ++ slack)
          w eb eb.length k
        = wrapStream w eb c ++ slack := by
  intro k
  induction k with
  | zero =>
    intro _ junk slack hj
    have hjn : junk = [] := List.eq_nil_of_length_eq_zero (by omega)
    subst hjn
    simp [line_wrap_lines]
  | succ k ih =>
    intro hk junk slack hj
    have hsw : (k + 1) * w = k * w + w := Nat.succ_mul k w
    have hse : (k + 1) * eb.length = k * eb.length + eb.length := Nat.succ_mul k eb.length
    have hkn : k * w + w ≤ num * w := by
      rw [← hsw]
      exact Nat.mul_le_mul_right w hk
    rw [hsw]
    rw [hse] at hj
    set A := c.take (k * w + w) with hA
    set WS := wrapStream w eb (c.drop (k * w + w)) with hWS
    have hAlen : A.length = k * w + w := by
      rw [hA, List.length_take]
      omega
    set bb := A ++ junk ++ WS ++ slack with hbb
    have hbbassoc : bb = A ++ (junk ++ (WS ++ slack)) := by
      rw [hbb]
      simp [List.append_assoc]
    have hbblen : bb.length = (k * w + w) + (k * eb.length + eb.length) +
        WS.length + slack.length := by
      rw [hbb]
      simp only [List.length_append, hAlen, hj]
    simp only [line_wrap_lines]
    have e2 : bb.take (k * w + w) = A := by
      rw [hbbassoc, List.take_append_of_le_length (by omega),
        List.take_of_length_le (by omega)]
    have hsrc : (bb.drop (k * w)).take w = (c.drop (k * w)).take w := by
      have e1 : (bb.take (k * w + w)).drop (k * w) = (bb.drop (k * w)).take w := by
        rw [List.drop_take]
        congr 1
        omega
      rw [← e1, e2, hA, List.drop_take]
      congr 1
      omega
    have hLk : ((c.drop (k * w)).take w).length = w := by
      rw [List.length_take, List.length_drop]
      omega
    set B1 := bb.take (k * w + k * eb.length) ++ (c.drop (k * w)).take w ++
      bb.drop (k * w + k * eb.length + w) with hB1
    have hcopy : copyWithin bb (k * w) (k * w + k * eb.length) w = B1 := by
      rw [copyWithin, hsrc, writeSeq_eq _ _ _ (by rw [hLk]; omega), hLk, hB1]
    have hB1len : B1.length = bb.length := by
      rw [hB1]
      simp only [List.length_append, List.length_take, List.length_drop, hLk]
      omega
    have htk : B1.take (k * w + k * eb.length + w) =
        bb.take (k * w + k * eb.length) ++ (c.drop (k * w)).take w := by
      rw [hB1, List.take_append_of_le_length (by
          simp only [List.length_append, List.length_take, hLk]
          omega),
        List.take_of_length_le (by
          simp only [List.length_append, List.length_take, hLk]
          omega)]
    have hdr : B1.drop (k * w + k * eb.length + w + eb.length) =
        bb.drop (k * w + k * eb.length + w + eb.length) := by
      rw [hB1]
      rw [show k * w + k * eb.length + w + eb.length =
          (bb.take (k * w + k * eb.length) ++ (c.drop (k * w)).take w).length +
            eb.length from by
        simp only [List.length_append, List.length_take, hLk]
        omega]
      rw [List.drop_append, List.drop_drop]
      congr 1
      simp only [List.length_append, List.length_take, hLk]
      omega
    have hwrite : writeSeq B1 (k * w + k * eb.length + w) eb =
        bb.take (k * w + k * eb.length) ++ (c.drop (k * w)).take w ++ eb ++
          bb.drop (k * w + k * eb.length + w + eb.length) := by
      rw [writeSeq_eq _ _ _ (by rw [hB1len]; omega), htk, hdr]
    have hpre0 : bb.take (k * w) = c.take (k * w) := by
      rw [hbbassoc, List.take_append_of_le_length (by omega), hA, List.take_take,
        Nat.min_def, if_pos (by omega)]
    have hpre : bb.take (k * w + k * eb.length) =
        c.take (k * w) ++ (bb.drop (k * w)).take (k * eb.length) := by
      rw [take_add', hpre0]
    have hjlen : ((bb.drop (k * w)).take (k * eb.length)).length = k * eb.length := by
      simp only [List.length_take, List.length_drop]
      omega
    have hsuf : bb.drop (k * w + k * eb.length + w + eb.length) = WS ++ slack := by
      rw [hbb, show A ++ junk ++ WS ++ slack = (A ++ junk) ++ (WS ++ slack) from by
        simp [List.append_assoc]]
      rw [List.drop_left' (by
        simp only [List.length_append, hAlen, hj]
        omega)]
    have hws : (c.drop (k * w)).take w ++ (eb ++ (WS ++ slack)) =
        wrapStream w eb (c.drop (k * w)) ++ slack := by
      rw [wrapStream_gt w eb (c.drop (k * w)) hw (by
        rw [List.length_drop]
        omega)]
      rw [hWS, List.drop_drop]
      simp [List.append_assoc]
    rw [hcopy, hwrite, hpre, hsuf]
    simp only [List.append_assoc]
    rw [hws]
    have hfin := ih (by omega) ((bb.drop (k * w)).take (k * eb.length)) slack hjlen
    simp only [List.append_assoc] at hfin
    exact hfin

theorem ending_bytes_len (e : LineEnding) : e.bytes.length = e.len := by
  cases e <;> rfl

theorem line_wrap_spec (buffer : List Nat) (n w : Nat) (e : LineEnding)
    (hbl : (line_wrap_parameters n w e).total_len ≤ buffer.length) :
    (line_wrap buffer n w e).2.take (line_wrap_parameters n w e).total_len =
      wrapStream w e.bytes (buffer.take n) ∧
    (line_wrap buffer n w e).1 =
      (line_wrap_parameters n w e).total_line_endings_len := by
  have hebl : e.bytes.length = e.len := ending_bytes_len e
  have hlw : line_wrap buffer n w e =
      ((line_wrap_parameters n w e).lines_with_endings * e.len,
       line_wrap_lines
         (copyWithin buffer ((line_wrap_parameters n w e).lines_with_endings * w)
           (line_wrap_parameters n w e).total_full_wrapped_lines_len
           (line_wrap_parameters n w e).last_line_len)
         w e.bytes e.len (line_wrap_parameters n w e).lines_with_endings) := rfl
  by_cases hnw : n ≤ w
  · have hp0 : line_wrap_parameters n w e = ⟨0, n, 0, n, 0⟩ := by
      simp [line_wrap_parameters, if_pos hnw]
    rw [hp0] at hbl
    rw [hlw, hp0]
    simp only [Nat.zero_mul, line_wrap_lines]
    rw [copyWithin, List.drop_zero, writeSeq_self_prefix]
    refine ⟨?_, by trivial⟩
    rw [wrapStream_le w e.bytes (buffer.take n) (by
      rw [List.length_take]
      left
      omega)]
  · by_cases hw : 0 < w
    · obtain ⟨hf1, hf2, hf3, hf4, hf5, hf6⟩ := lwp_fields n w e hw (by omega)
      rw [hlw]
      set p := line_wrap_parameters n w e with hp
      set num := p.lines_with_endings with hnum
      have hdist : num * (w + e.len) = num * w + num * e.len :=
        Nat.left_distrib num w e.len
      set c := buffer.take n with hc
      have hnb : n ≤ buffer.length := by omega
      have hclen : c.length = n := by
        rw [hc, List.length_take]
        omega
      have hsrc : (buffer.drop (num * w)).take p.last_line_len = c.drop (num * w) := by
        rw [hc, List.drop_take]
        congr 1
        omega
      have hWSn : wrapStream w e.bytes (c.drop (num * w)) = c.drop (num * w) := by
        apply wrapStream_le
        rw [List.length_drop]
        left
        omega
      have hcw : copyWithin buffer (num * w) p.total_full_wrapped_lines_len
          p.last_line_len =
          c.take (num * w) ++ (buffer.drop (num * w)).take (num * e.len) ++
            (wrapStream w e.bytes (c.drop (num * w)) ++ buffer.drop (n + num * e.len)) := by
        rw [copyWithin, hsrc, writeSeq_eq _ _ _ (by
          rw [List.length_drop, hclen]
          omega)]
        rw [hWSn]
        have hidx : p.total_full_wrapped_lines_len = num * w + num * e.len := by
          rw [hf4, hdist]
        rw [hidx]
        rw [take_add']
        have hbt : buffer.take (num * w) = c.take (num * w) := by
          rw [hc, List.take_take, Nat.min_def, if_pos (by omega)]
        rw [hbt]
        have hdi : num * w + num * e.len + (c.drop (num * w)).length =
            n + num * e.len := by
          rw [List.length_drop, hclen]
          omega
        rw [hdi]
        simp [List.append_assoc]
      rw [hcw]
      have hjl : ((buffer.drop (num * w)).take (num * e.len)).length =
          num * e.bytes.length := by
        rw [hebl, List.length_take, List.length_drop]
        omega
      have hinv := wrap_lines_invariant c w hw e.bytes num
        (by rw [hclen]; omega) num (Nat.le_refl num)
        ((buffer.drop (num * w)).take (num * e.len))
        (buffer.drop (n + num * e.len)) hjl
      rw [show c.take (num * w) ++ (buffer.drop (num * w)).take (num * e.len) ++
          (wrapStream w e.bytes (c.drop (num * w)) ++ buffer.drop (n + num * e.len)) =
          c.take (num * w) ++ (buffer.drop (num * w)).take (num * e.len) ++
            wrapStream w e.bytes (c.drop (num * w)) ++ buffer.drop (n + num * e.len) from by
        simp [List.append_assoc]]
      have hel2 : e.len = e.bytes.length := hebl.symm
      rw [show line_wrap_lines
          (c.take (num * w) ++ (buffer.drop (num * w)).take (num * e.len) ++
            wrapStream w e.bytes (c.drop (num * w)) ++ buffer.drop (n + num * e.len))
          w e.bytes e.len num =
          line_wrap_lines
          (c.take (num * w) ++ (buffer.drop (num * w)).take (num * e.len) ++
            wrapStream w e.bytes (c.drop (num * w)) ++ buffer.drop (n + num * e.len))
          w e.bytes e.bytes.length num from by rw [← hel2]]
      rw [hinv]
      constructor
      · have hwsl : (wrapStream w e.bytes c).length = p.total_len := by
          rw [wrapStream_length w hw e.bytes num c (by omega) (by omega), hebl, hclen]
          omega
        rw [List.take_append_of_le_length (by omega), List.take_of_length_le (by omega)]
      · rw [hf6]
    · have hw0 : w = 0 := by omega
      subst hw0
      have hn0 : 0 < n := by omega
      have hp0 : line_wrap_parameters n 0 e = ⟨0, n, 0, n, 0⟩ := by
        simp only [line_wrap_parameters, if_neg hnw, Nat.mod_zero, Nat.div_zero]
        rw [if_pos hn0]
        simp
      rw [hp0] at hbl
      rw [hlw, hp0]
      simp only [Nat.zero_mul, line_wrap_lines]
      rw [copyWithin, List.drop_zero, writeSeq_self_prefix]
      refine ⟨?_, by trivial⟩
      rw [wrapStream_le 0 e.bytes (buffer.take n) (Or.inr rfl)]

theorem lwp_total (n w : Nat) (e : LineEnding) :
    (line_wrap_parameters n w e).total_len =
      n + (line_wrap_parameters n w e).lines_with_endings * e.len ∧
    (line_wrap_parameters n w e).total_line_endings_len =
      (line_wrap_parameters n w e).lines_with_endings * e.len := by
  by_cases hnw : n ≤ w
  · simp [line_wrap_parameters, if_pos hnw]
  · by_cases hw : 0 < w
    · obtain ⟨hf1, hf2, hf3, hf4, hf5, hf6⟩ := lwp_fields n w e hw (by omega)
      have hdist : (line_wrap_parameters n w e).lines_with_endings * (w + e.len) =
          (line_wrap_parameters n w e).lines_with_endings * w +
            (line_wrap_parameters n w e).lines_with_endings * e.len :=
        Nat.left_distrib _ w e.len
      omega
    · have hw0 : w = 0 := by omega
      subst hw0
      simp only [line_wrap_parameters, if_neg hnw, Nat.mod_zero, Nat.div_zero,
        if_pos (by omega : 0 < n)]
      simp

theorem encB64_pad_length (input : List Nat) (pad : Bool) (t : Nat → Nat) :
    (encB64 t input ++ (if pad then add_padding input.length else [])).length =
      (if 0 < input.length % 3 then
        (if pad then input.length / 3 * 4 + 4
         else input.length / 3 * 4 + (if input.length % 3 = 1 then 2 else 3))
       else input.length / 3 * 4) := by
  have h3 : input.length % 3 = 0 ∨ input.length % 3 = 1 ∨ input.length % 3 = 2 := by
    omega
  rcases h3 with h3 | h3 | h3 <;> cases pad <;>
    simp [encB64_length, add_padding, h3, encRemChars] <;> omega

theorem write_into_fresh (buf B P : List Nat) (sz : Nat)
    (h : B.length + P.length ≤ sz) :
    writeSeq (writeSeq (buf ++ List.replicate sz 0) buf.length B)
        (buf.length + B.length) P =
      buf ++ B ++ P ++ List.replicate (sz - B.length - P.length) 0 := by
  rw [writeSeq_eq B _ _ (by simp only [List.length_append, List.length_replicate]; omega)]
  rw [List.take_left, List.drop_append, List.drop_replicate]
  rw [writeSeq_eq P _ _ (by
    simp only [List.length_append, List.length_replicate]
    omega)]
  rw [show buf.length + B.length = (buf ++ B).length from by simp,
    show buf ++ B ++ List.replicate (sz - B.length) 0 =
      (buf ++ B) ++ List.replicate (sz - B.length) 0 from by simp]
  rw [List.take_left, List.drop_append, List.drop_replicate]

theorem encode_config_buf_nowrap (input : List Nat) (cs : CharacterSet)
    (p st : Bool) (buf : List Nat) (h256 : ∀ b ∈ input, b < 256) :
    encode_config_buf input ⟨cs, p, st, .NoWrap⟩ buf =
      buf ++ encB64 cs.encode_table input ++
        (if p then add_padding input.length else []) := by
  have hunf : encode_config_buf input ⟨cs, p, st, .NoWrap⟩ buf =
      (writeSeq (writeSeq (buf ++ List.replicate
          (encoded_size input.length ⟨cs, p, st, .NoWrap⟩) 0) buf.length
          (encode_to_slice input cs.encode_table))
        (buf.length + (encode_to_slice input cs.encode_table).length)
        (if p then add_padding input.length else [])).take
        (buf.length + ((encode_to_slice input cs.encode_table).length +
          (if p then add_padding input.length else []).length)) := rfl
  rw [hunf, encode_to_slice_eq input cs.encode_table h256]
  have hsz : encoded_size input.length ⟨cs, p, st, .NoWrap⟩ =
      (encB64 cs.encode_table input ++
        (if p then add_padding input.length else [])).length := by
    rw [encB64_pad_length input p cs.encode_table]
    rfl
  rw [hsz, write_into_fresh buf _ _ _ (by simp)]
  simp only [List.length_append]
  rw [show (encB64 cs.encode_table input).length +
      (if p then add_padding input.length else []).length -
      (encB64 cs.encode_table input).length -
      (if p then add_padding input.length else []).length = 0 from by omega]
  simp only [List.replicate_zero, List.append_nil]
  rw [List.take_of_length_le (by
    simp only [List.length_append]
    omega)]

theorem encode_config_buf_wrap (input : List Nat) (cs : CharacterSet)
    (p st : Bool) (w : Nat) (e : LineEnding) (buf : List Nat)
    (h256 : ∀ b ∈ input, b < 256) :
    encode_config_buf input ⟨cs, p, st, .Wrap w e⟩ buf =
      buf ++ wrapStream w e.bytes (encB64 cs.encode_table input ++
        (if p then add_padding input.length else [])) := by
  set B := encB64 cs.encode_table input with hB
  set P : List Nat := if p then add_padding input.length else [] with hP
  set n := (B ++ P).length with hn
  set q := line_wrap_parameters n w e with hq
  obtain ⟨hq1, hq2⟩ := lwp_total n w e
  rw [← hq] at hq1 hq2
  have hBP : B.length + P.length = n := by
    rw [hn, List.length_append]
  have hsz : encoded_size input.length ⟨cs, p, st, .Wrap w e⟩ = q.total_len := by
    show (line_wrap_parameters (if 0 < input.length % 3 then
        (if p then input.length / 3 * 4 + 4
         else input.length / 3 * 4 + (if input.length % 3 = 1 then 2 else 3))
       else input.length / 3 * 4) w e).total_len = q.total_len
    rw [← encB64_pad_length input p cs.encode_table, hq]
  have hunf : encode_config_buf input ⟨cs, p, st, .Wrap w e⟩ buf =
      ((writeSeq (writeSeq (buf ++ List.replicate
          (encoded_size input.length ⟨cs, p, st, .Wrap w e⟩) 0) buf.length
          (encode_to_slice input cs.encode_table))
        (buf.length + (encode_to_slice input cs.encode_table).length)
        P).take buf.length ++
        (line_wrap ((writeSeq (writeSeq (buf ++ List.replicate
          (encoded_size input.length ⟨cs, p, st, .Wrap w e⟩) 0) buf.length
          (encode_to_slice input cs.encode_table))
        (buf.length + (encode_to_slice input cs.encode_table).length)
        P).drop buf.length) ((encode_to_slice input cs.encode_table).length +
          P.length) w e).2).take
        (buf.length + ((encode_to_slice input cs.encode_table).length +
          P.length) +
          (line_wrap ((writeSeq (writeSeq (buf ++ List.replicate
            (encoded_size input.length ⟨cs, p, st, .Wrap w e⟩) 0) buf.length
            (encode_to_slice input cs.encode_table))
          (buf.length + (encode_to_slice input cs.encode_table).length)
          P).drop buf.length) ((encode_to_slice input cs.encode_table).length +
            P.length) w e).1) := rfl
  rw [hunf, hsz, encode_to_slice_eq input cs.encode_table h256, ← hB]
  have hfresh := write_into_fresh buf B P q.total_len (by omega)
  rw [hfresh]
  have hdrop : (buf ++ B ++ P ++ List.replicate (q.total_len - B.length - P.length) 0).drop
      buf.length = B ++ P ++ List.replicate (q.total_len - B.length - P.length) 0 := by
    rw [List.append_assoc, List.append_assoc, List.drop_left, List.append_assoc]
  have htake : (buf ++ B ++ P ++ List.replicate (q.total_len - B.length - P.length) 0).take
      buf.length = buf := by
    rw [List.append_assoc, List.append_assoc, List.take_left]
  rw [hdrop, htake]
  have hslen : (B ++ P ++ List.replicate (q.total_len - B.length - P.length) 0).length =
      q.total_len := by
    simp only [List.length_append, List.length_replicate]
    omega
  rw [hBP]
  obtain ⟨hw1, hw2⟩ := line_wrap_spec
    (B ++ P ++ List.replicate (q.total_len - B.length - P.length) 0) n w e
    (by rw [hslen, ← hq])
  rw [← hq] at hw1 hw2
  have hcont : (B ++ P ++ List.replicate (q.total_len - B.length - P.length) 0).take n =
      B ++ P := by
    rw [List.take_append_of_le_length (by
        simp only [List.length_append]
        omega),
      List.take_of_length_le (by
        simp only [List.length_append]
        omega)]
  rw [hcont] at hw1
  rw [hw2, hq2]
  rw [show buf.length + n + q.lines_with_endings * e.len =
    buf.length + q.total_len from by omega]
  rw [List.take_append q.total_len, hw1]

theorem encode_config_buf_eq (input : List Nat) (config : Config) (buf : List Nat)
    (h256 : ∀ b ∈ input, b < 256) :
    encode_config_buf input config buf = buf ++
      (match config.line_wrap with
       | .NoWrap => encB64 config.char_set.encode_table input ++
           (if config.pad then add_padding input.length else [])
       | .Wrap w e => wrapStream w e.bytes
           (encB64 config.char_set.encode_table input ++
             (if config.pad then add_padding input.length else []))) := by
  obtain ⟨cs, p, st, lw⟩ := config
  cases lw with
  | NoWrap =>
    rw [encode_config_buf_nowrap input cs p st buf h256]
    simp [List.append_assoc]
  | Wrap w e =>
    rw [encode_config_buf_wrap input cs p st w e buf h256]

/-! ### The decoder fast loop inverts the encoder -/

theorem exists_cons6 (l : List Nat) (h : 6 ≤ l.length) :
    ∃ d0 d1 d2 d3 d4 d5 tl, l = d0 :: d1 :: d2 :: d3 :: d4 :: d5 :: tl := by
  match l, h with
  | d0 :: d1 :: d2 :: d3 :: d4 :: d5 :: tl, _ =>
    exact ⟨d0, d1, d2, d3, d4, d5, tl, rfl⟩

theorem decodeFastLoop_step (cs : CharacterSet) (ib : List Nat) (lofc : Nat)
    (bb : List Nat) (oi ii : Nat) (d0 d1 d2 d3 d4 d5 : Nat)
    (h0 : d0 < 256) (h1 : d1 < 256) (h2 : d2 < 256) (h3 : d3 < 256)
    (h4 : d4 < 256) (h5 : d5 < 256) (suffix : List Nat)
    (hdrop : ib.drop ii =
      cs.encode_table (d0 >>> 2) ::
      cs.encode_table ((((d0 <<< 4) % 256) ||| (d1 >>> 4)) &&& 63) ::
      cs.encode_table ((((d1 <<< 2) % 256) ||| (d2 >>> 6)) &&& 63) ::
      cs.encode_table (d2 &&& 63) ::
      cs.encode_table (d3 >>> 2) ::
      cs.encode_table ((((d3 <<< 4) % 256) ||| (d4 >>> 4)) &&& 63) ::
      cs.encode_table ((((d4 <<< 2) % 256) ||| (d5 >>> 6)) &&& 63) ::
      cs.encode_table (d5 &&& 63) :: suffix)
    (hii : ii < lofc) :
    decodeFastLoop cs.decode_table ib lofc bb oi ii =
      decodeFastLoop cs.decode_table ib lofc
        (writeSeq bb oi [d0, d1, d2, d3, d4, d5, 0, 0]) (oi + 6) (ii + 8) := by
  have hv1 : d0 >>> 2 < 64 := by
    rw [Nat.shiftRight_eq_div_pow]
    omega
  have hv2 : (((d0 <<< 4) % 256) ||| (d1 >>> 4)) &&& 63 < 64 := by
    rw [and63]
    omega
  have hv3 : (((d1 <<< 2) % 256) ||| (d2 >>> 6)) &&& 63 < 64 := by
    rw [and63]
    omega
  have hv4 : d2 &&& 63 < 64 := by
    rw [and63]
    omega
  have hv5 : d3 >>> 2 < 64 := by
    rw [Nat.shiftRight_eq_div_pow]
    omega
  have hv6 : (((d3 <<< 4) % 256) ||| (d4 >>> 4)) &&& 63 < 64 := by
    rw [and63]
    omega
  have hv7 : (((d4 <<< 2) % 256) ||| (d5 >>> 6)) &&& 63 < 64 := by
    rw [and63]
    omega
  have hv8 : d5 &&& 63 < 64 := by
    rw [and63]
    omega
  have hasc : ∀ v, v < 64 → cs.encode_table v < 256 :=
    fun v hv => Nat.lt_trans (encode_table_ascii cs v hv) (by omega)
  obtain ⟨f1, f2, f3, f4, f5, f6, f7, f8⟩ :=
    read_u64_fields _ _ _ _ _ _ _ _ _ suffix rfl
      (hasc _ hv1) (hasc _ hv2) (hasc _ hv3) (hasc _ hv4)
      (hasc _ hv5) (hasc _ hv6) (hasc _ hv7) (hasc _ hv8)
  have hinv : ∀ v, v < 64 → ¬ cs.decode_table (cs.encode_table v) = INVALID_VALUE := by
    intro v hv
    rw [decode_encode_table cs v hv]
    unfold INVALID_VALUE
    omega
  conv_lhs => rw [decodeFastLoop]
  rw [if_pos hii]
  simp only []
  rw [hdrop, f1, f2, f3, f4, f5, f6, f7, f8]
  rw [if_neg (hinv _ hv1), if_neg (hinv _ hv2), if_neg (hinv _ hv3),
    if_neg (hinv _ hv4), if_neg (hinv _ hv5), if_neg (hinv _ hv6),
    if_neg (hinv _ hv7), if_neg (hinv _ hv8)]
  rw [decode_encode_table cs _ hv1, decode_encode_table cs _ hv2,
    decode_encode_table cs _ hv3, decode_encode_table cs _ hv4,
    decode_encode_table cs _ hv5, decode_encode_table cs _ hv6,
    decode_encode_table cs _ hv7, decode_encode_table cs _ hv8]
  rw [accum_eq _ _ _ _ _ _ _ _ hv1 hv2 hv3 hv4 hv5 hv6 hv7 hv8]
  rw [decode_chunk_bytes d0 d1 d2 d3 d4 d5 h0 h1 h2 h3 h4 h5]

theorem encB64_take_length (t : Nat → Nat) (data : List Nat) (j : Nat)
    (hj : 6 * j ≤ data.length) :
    (encB64 t (data.take (6 * j))).length = 8 * j := by
  rw [encB64_length, List.length_take]
  rw [show min (6 * j) data.length = 6 * j from by omega]
  rw [show 6 * j % 3 = 0 from by omega, show 6 * j / 3 = 2 * j from by omega]
  simp only [encRemChars]
  omega

theorem decodeFastLoop_ok (cs : CharacterSet) (data pads buffer : List Nat)
    (h256 : ∀ b ∈ data, b < 256) (J lofc : Nat) (hl8 : lofc = 8 * J)
    (hdl : 6 * J ≤ data.length) :
    ∀ k j, J - j = k → j ≤ J →
      decodeFastLoop cs.decode_table (encB64 cs.encode_table data ++ pads) lofc
        (buffer ++ data.take (6 * j) ++ List.replicate ((J - j) * 6 + 2) 0)
        (buffer.length + 6 * j) (8 * j)
      = .ok (buffer ++ data.take (6 * J) ++ List.replicate 2 0,
             buffer.length + 6 * J) := by
  intro k
  induction k with
  | zero =>
    intro j hk hj
    have hjJ : j = J := by omega
    rw [hjJ]
    rw [decodeFastLoop.eq_def, if_neg (by omega)]
    rw [show (J - J) * 6 + 2 = 2 from by omega]
  | succ k ih =>
    intro j hk hj
    have hjJ : j < J := by omega
    have h6j : 6 * j + 6 ≤ data.length := by omega
    obtain ⟨d0, d1, d2, d3, d4, d5, tl, htl⟩ :=
      exists_cons6 (data.drop (6 * j)) (by rw [List.length_drop]; omega)
    have hmem : ∀ b ∈ data.drop (6 * j), b < 256 :=
      fun b hb => h256 b (List.mem_of_mem_drop hb)
    have hd0 : d0 < 256 := hmem d0 (by rw [htl]; simp)
    have hd1 : d1 < 256 := hmem d1 (by rw [htl]; simp)
    have hd2 : d2 < 256 := hmem d2 (by rw [htl]; simp)
    have hd3 : d3 < 256 := hmem d3 (by rw [htl]; simp)
    have hd4 : d4 < 256 := hmem d4 (by rw [htl]; simp)
    have hd5 : d5 < 256 := hmem d5 (by rw [htl]; simp)
    have hlen_take : (data.take (6 * j)).length = 6 * j := by
      rw [List.length_take]
      omega
    have hEdrop : (encB64 cs.encode_table data ++ pads).drop (8 * j) =
        encB64 cs.encode_table (data.drop (6 * j)) ++ pads := by
      conv_lhs => rw [show data = data.take (6 * j) ++ data.drop (6 * j) from
        (List.take_append_drop _ _).symm]
      rw [encB64_append _ _ _ (by rw [hlen_take]; omega)]
      rw [List.append_assoc, List.drop_left' (encB64_take_length _ data j (by omega))]
    have hchars : encB64 cs.encode_table (data.drop (6 * j)) ++ pads =
        cs.encode_table (d0 >>> 2) ::
        cs.encode_table ((((d0 <<< 4) % 256) ||| (d1 >>> 4)) &&& 63) ::
        cs.encode_table ((((d1 <<< 2) % 256) ||| (d2 >>> 6)) &&& 63) ::
        cs.encode_table (d2 &&& 63) ::
        cs.encode_table (d3 >>> 2) ::
        cs.encode_table ((((d3 <<< 4) % 256) ||| (d4 >>> 4)) &&& 63) ::
        cs.encode_table ((((d4 <<< 2) % 256) ||| (d5 >>> 6)) &&& 63) ::
        cs.encode_table (d5 &&& 63) :: (encB64 cs.encode_table tl ++ pads) := by
      rw [htl]
      simp only [encB64, List.cons_append, List.nil_append]
    have hstep := decodeFastLoop_step cs (encB64 cs.encode_table data ++ pads) lofc
      (buffer ++ data.take (6 * j) ++ List.replicate ((J - j) * 6 + 2) 0)
      (buffer.length + 6 * j) (8 * j) d0 d1 d2 d3 d4 d5
      hd0 hd1 hd2 hd3 hd4 hd5 (encB64 cs.encode_table tl ++ pads)
      (by rw [hEdrop, hchars]) (by omega)
    rw [hstep]
    have hvl : ([d0, d1, d2, d3, d4, d5, 0, 0] : List Nat).length = 8 := rfl
    have hbT : (buffer ++ data.take (6 * j)).length = buffer.length + 6 * j := by
      simp [hlen_take]
    have hwr : writeSeq
        (buffer ++ data.take (6 * j) ++ List.replicate ((J - j) * 6 + 2) 0)
        (buffer.length + 6 * j) [d0, d1, d2, d3, d4, d5, 0, 0] =
        buffer ++ data.take (6 * (j + 1)) ++
          List.replicate ((J - (j + 1)) * 6 + 2) 0 := by
      rw [writeSeq_eq _ _ _ (by
        rw [hvl]
        simp only [List.length_append, List.length_replicate, hlen_take]
        omega)]
      rw [hvl]
      rw [List.take_left' hbT]
      rw [show buffer.length + 6 * j + 8 = (buffer ++ data.take (6 * j)).length + 8 from
        by rw [hbT]]
      rw [List.drop_append, List.drop_replicate]
      have hT6 : data.take (6 * (j + 1)) = data.take (6 * j) ++ [d0, d1, d2, d3, d4, d5] := by
        rw [show 6 * (j + 1) = 6 * j + 6 from by omega, take_add']
        congr 1
        rw [htl]
        rfl
      rw [hT6]
      have hrep : ([d0, d1, d2, d3, d4, d5, 0, 0] : List Nat) =
          [d0, d1, d2, d3, d4, d5] ++ List.replicate 2 0 := rfl
      rw [hrep]
      simp only [List.append_assoc]
      rw [← List.replicate_add]
      rw [show 2 + ((J - j) * 6 + 2 - 8) = (J - (j + 1)) * 6 + 2 from by omega]
    rw [hwr, show buffer.length + 6 * j + 6 = buffer.length + 6 * (j + 1) from by omega,
      show 8 * j + 8 = 8 * (j + 1) from by omega]
    exact ih (j + 1) (by omega) (by omega)

/-! ### The trailing scalar pass inverts the encoder on short data -/

theorem decodeTailLoop_char (cs : CharacterSet) (lofc : Nat) (v : Nat) (hv : v < 64)
    (rest : List Nat) (i lo m fp : Nat) :
    decodeTailLoop cs.decode_table lofc (cs.encode_table v :: rest) i lo m 0 fp =
      decodeTailLoop cs.decode_table lofc rest (i + 1)
        (lo ||| (v <<< (64 - (m + 1) * 6))) (m + 1) 0 fp := by
  simp only [decodeTailLoop]
  rw [if_neg (encode_table_ne_pad cs v hv), if_neg (by omega : ¬ 0 < 0),
    decode_encode_table cs v hv,
    if_neg (by unfold INVALID_VALUE; omega : ¬ v = INVALID_VALUE)]

theorem decodeTailLoop_pad (cs : CharacterSet) (lofc : Nat) (rest : List Nat)
    (i lo m p fp : Nat) (hi : ¬ i % 4 < 2) :
    decodeTailLoop cs.decode_table lofc (61 :: rest) i lo m p fp =
      decodeTailLoop cs.decode_table lofc rest (i + 1) lo m (p + 1)
        (if p = 0 then i else fp) := by
  simp only [decodeTailLoop]
  rw [if_pos True.intro, if_neg hi]

theorem decodeTailLoop_nil (cs : CharacterSet) (lofc : Nat) (i lo m p fp : Nat) :
    decodeTailLoop cs.decode_table lofc [] i lo m p fp = .ok (lo, m) := rfl

theorem accum2 (m1 m2 : Nat) (h1 : m1 < 64) (h2 : m2 < 64) :
    (m1 <<< 58) ||| (m2 <<< 52) = m1 * 2 ^ 58 + m2 * 2 ^ 52 := by
  simp only [Nat.shiftLeft_eq]
  have e1 : m1 * 2 ^ 58 ||| m2 * 2 ^ 52 =
      m1 * 2 ^ 58 + m2 * 2 ^ 52 :=
    lor_disjoint (k := 58) (by omega) (by omega)
  rw [e1]

theorem accum3 (m1 m2 m3 : Nat) (h1 : m1 < 64) (h2 : m2 < 64) (h3 : m3 < 64) :
    (m1 <<< 58) ||| (m2 <<< 52) ||| (m3 <<< 46) = m1 * 2 ^ 58 + m2 * 2 ^ 52 + m3 * 2 ^ 46 := by
  simp only [Nat.shiftLeft_eq]
  have e1 : m1 * 2 ^ 58 ||| m2 * 2 ^ 52 =
      m1 * 2 ^ 58 + m2 * 2 ^ 52 :=
    lor_disjoint (k := 58) (by omega) (by omega)
  rw [e1]
  have e2 : (m1 * 2 ^ 58 + m2 * 2 ^ 52) ||| m3 * 2 ^ 46 =
      m1 * 2 ^ 58 + m2 * 2 ^ 52 + m3 * 2 ^ 46 :=
    lor_disjoint (k := 52) (by omega) (by omega)
  rw [e2]

theorem accum4 (m1 m2 m3 m4 : Nat) (h1 : m1 < 64) (h2 : m2 < 64) (h3 : m3 < 64) (h4 : m4 < 64) :
    (m1 <<< 58) ||| (m2 <<< 52) ||| (m3 <<< 46) ||| (m4 <<< 40) = m1 * 2 ^ 58 + m2 * 2 ^ 52 + m3 * 2 ^ 46 + m4 * 2 ^ 40 := by
  simp only [Nat.shiftLeft_eq]
  have e1 : m1 * 2 ^ 58 ||| m2 * 2 ^ 52 =
      m1 * 2 ^ 58 + m2 * 2 ^ 52 :=
    lor_disjoint (k := 58) (by omega) (by omega)
  rw [e1]
  have e2 : (m1 * 2 ^ 58 + m2 * 2 ^ 52) ||| m3 * 2 ^ 46 =
      m1 * 2 ^ 58 + m2 * 2 ^ 52 + m3 * 2 ^ 46 :=
    lor_disjoint (k := 52) (by omega) (by omega)
  rw [e2]
  have e3 : (m1 * 2 ^ 58 + m2 * 2 ^ 52 + m3 * 2 ^ 46) ||| m4 * 2 ^ 40 =
      m1 * 2 ^ 58 + m2 * 2 ^ 52 + m3 * 2 ^ 46 + m4 * 2 ^ 40 :=
    lor_disjoint (k := 46) (by omega) (by omega)
  rw [e3]

theorem accum5 (m1 m2 m3 m4 m5 : Nat) (h1 : m1 < 64) (h2 : m2 < 64) (h3 : m3 < 64) (h4 : m4 < 64) (h5 : m5 < 64) :
    (m1 <<< 58) ||| (m2 <<< 52) ||| (m3 <<< 46) ||| (m4 <<< 40) ||| (m5 <<< 34) = m1 * 2 ^ 58 + m2 * 2 ^ 52 + m3 * 2 ^ 46 + m4 * 2 ^ 40 + m5 * 2 ^ 34 := by
  simp only [Nat.shiftLeft_eq]
  have e1 : m1 * 2 ^ 58 ||| m2 * 2 ^ 52 =
      m1 * 2 ^ 58 + m2 * 2 ^ 52 :=
    lor_disjoint (k := 58) (by omega) (by omega)
  rw [e1]
  have e2 : (m1 * 2 ^ 58 + m2 * 2 ^ 52) ||| m3 * 2 ^ 46 =
      m1 * 2 ^ 58 + m2 * 2 ^ 52 + m3 * 2 ^ 46 :=
    lor_disjoint (k := 52) (by omega) (by omega)
  rw [e2]
  have e3 : (m1 * 2 ^ 58 + m2 * 2 ^ 52 + m3 * 2 ^ 46) ||| m4 * 2 ^ 40 =
      m1 * 2 ^ 58 + m2 * 2 ^ 52 + m3 * 2 ^ 46 + m4 * 2 ^ 40 :=
    lor_disjoint (k := 46) (by omega) (by omega)
  rw [e3]
  have e4 : (m1 * 2 ^ 58 + m2 * 2 ^ 52 + m3 * 2 ^ 46 + m4 * 2 ^ 40) ||| m5 * 2 ^ 34 =
      m1 * 2 ^ 58 + m2 * 2 ^ 52 + m3 * 2 ^ 46 + m4 * 2 ^ 40 + m5 * 2 ^ 34 :=
    lor_disjoint (k := 40) (by omega) (by omega)
  rw [e4]

theorem accum6 (m1 m2 m3 m4 m5 m6 : Nat) (h1 : m1 < 64) (h2 : m2 < 64) (h3 : m3 < 64) (h4 : m4 < 64) (h5 : m5 < 64) (h6 : m6 < 64) :
    (m1 <<< 58) ||| (m2 <<< 52) ||| (m3 <<< 46) ||| (m4 <<< 40) ||| (m5 <<< 34) ||| (m6 <<< 28) = m1 * 2 ^ 58 + m2 * 2 ^ 52 + m3 * 2 ^ 46 + m4 * 2 ^ 40 + m5 * 2 ^ 34 + m6 * 2 ^ 28 := by
  simp only [Nat.shiftLeft_eq]
  have e1 : m1 * 2 ^ 58 ||| m2 * 2 ^ 52 =
      m1 * 2 ^ 58 + m2 * 2 ^ 52 :=
    lor_disjoint (k := 58) (by omega) (by omega)
  rw [e1]
  have e2 : (m1 * 2 ^ 58 + m2 * 2 ^ 52) ||| m3 * 2 ^ 46 =
      m1 * 2 ^ 58 + m2 * 2 ^ 52 + m3 * 2 ^ 46 :=
    lor_disjoint (k := 52) (by omega) (by omega)
  rw [e2]
  have e3 : (m1 * 2 ^ 58 + m2 * 2 ^ 52 + m3 * 2 ^ 46) ||| m4 * 2 ^ 40 =
      m1 * 2 ^ 58 + m2 * 2 ^ 52 + m3 * 2 ^ 46 + m4 * 2 ^ 40 :=
    lor_disjoint (k := 46) (by omega) (by omega)
  rw [e3]
  have e4 : (m1 * 2 ^ 58 + m2 * 2 ^ 52 + m3 * 2 ^ 46 + m4 * 2 ^ 40) ||| m5 * 2 ^ 34 =
      m1 * 2 ^ 58 + m2 * 2 ^ 52 + m3 * 2 ^ 46 + m4 * 2 ^ 40 + m5 * 2 ^ 34 :=
    lor_disjoint (k := 40) (by omega) (by omega)
  rw [e4]
  have e5 : (m1 * 2 ^ 58 + m2 * 2 ^ 52 + m3 * 2 ^ 46 + m4 * 2 ^ 40 + m5 * 2 ^ 34) ||| m6 * 2 ^ 28 =
      m1 * 2 ^ 58 + m2 * 2 ^ 52 + m3 * 2 ^ 46 + m4 * 2 ^ 40 + m5 * 2 ^ 34 + m6 * 2 ^ 28 :=
    lor_disjoint (k := 34) (by omega) (by omega)
  rw [e5]

theorem accum7 (m1 m2 m3 m4 m5 m6 m7 : Nat) (h1 : m1 < 64) (h2 : m2 < 64) (h3 : m3 < 64) (h4 : m4 < 64) (h5 : m5 < 64) (h6 : m6 < 64) (h7 : m7 < 64) :
    (m1 <<< 58) ||| (m2 <<< 52) ||| (m3 <<< 46) ||| (m4 <<< 40) ||| (m5 <<< 34) ||| (m6 <<< 28) ||| (m7 <<< 22) = m1 * 2 ^ 58 + m2 * 2 ^ 52 + m3 * 2 ^ 46 + m4 * 2 ^ 40 + m5 * 2 ^ 34 + m6 * 2 ^ 28 + m7 * 2 ^ 22 := by
  simp only [Nat.shiftLeft_eq]
  have e1 : m1 * 2 ^ 58 ||| m2 * 2 ^ 52 =
      m1 * 2 ^ 58 + m2 * 2 ^ 52 :=
    lor_disjoint (k := 58) (by omega) (by omega)
  rw [e1]
  have e2 : (m1 * 2 ^ 58 + m2 * 2 ^ 52) ||| m3 * 2 ^ 46 =
      m1 * 2 ^ 58 + m2 * 2 ^ 52 + m3 * 2 ^ 46 :=
    lor_disjoint (k := 52) (by omega) (by omega)
  rw [e2]
  have e3 : (m1 * 2 ^ 58 + m2 * 2 ^ 52 + m3 * 2 ^ 46) ||| m4 * 2 ^ 40 =
      m1 * 2 ^ 58 + m2 * 2 ^ 52 + m3 * 2 ^ 46 + m4 * 2 ^ 40 :=
    lor_disjoint (k := 46) (by omega) (by omega)
  rw [e3]
  have e4 : (m1 * 2 ^ 58 + m2 * 2 ^ 52 + m3 * 2 ^ 46 + m4 * 2 ^ 40) ||| m5 * 2 ^ 34 =
      m1 * 2 ^ 58 + m2 * 2 ^ 52 + m3 * 2 ^ 46 + m4 * 2 ^ 40 + m5 * 2 ^ 34 :=
    lor_disjoint (k := 40) (by omega) (by omega)
  rw [e4]
  have e5 : (m1 * 2 ^ 58 + m2 * 2 ^ 52 + m3 * 2 ^ 46 + m4 * 2 ^ 40 + m5 * 2 ^ 34) ||| m6 * 2 ^ 28 =
      m1 * 2 ^ 58 + m2 * 2 ^ 52 + m3 * 2 ^ 46 + m4 * 2 ^ 40 + m5 * 2 ^ 34 + m6 * 2 ^ 28 :=
    lor_disjoint (k := 34) (by omega) (by omega)
  rw [e5]
  have e6 : (m1 * 2 ^ 58 + m2 * 2 ^ 52 + m3 * 2 ^ 46 + m4 * 2 ^ 40 + m5 * 2 ^ 34 + m6 * 2 ^ 28) ||| m7 * 2 ^ 22 =
      m1 * 2 ^ 58 + m2 * 2 ^ 52 + m3 * 2 ^ 46 + m4 * 2 ^ 40 + m5 * 2 ^ 34 + m6 * 2 ^ 28 + m7 * 2 ^ 22 :=
    lor_disjoint (k := 28) (by omega) (by omega)
  rw [e6]

theorem tail_rt1 (cs : CharacterSet) (lofc : Nat) (usePad : Bool) (d0 : Nat)
    (h0 : d0 < 256) :
    decodeTailLoop cs.decode_table lofc
        (encB64 cs.encode_table [d0] ++ (if usePad then add_padding 1 else []))
        0 0 0 0 0 =
      .ok ((d0 >>> 2) <<< 58 ||| ((((d0 <<< 4) % 256) &&& 63) <<< 52), 2) ∧
    emitLoop ((d0 >>> 2) <<< 58 ||| ((((d0 <<< 4) % 256) &&& 63) <<< 52)) 0 8 =
      [d0] := by
  have hv1 : d0 >>> 2 < 64 := by
    rw [Nat.shiftRight_eq_div_pow]
    omega
  have hv2 : ((d0 <<< 4) % 256) &&& 63 < 64 := by
    rw [and63]
    omega
  constructor
  · cases usePad
    · simp only [encB64, Bool.false_eq_true, if_false, List.append_nil,
        List.cons_append, List.nil_append]
      rw [decodeTailLoop_char cs lofc _ hv1, decodeTailLoop_char cs lofc _ hv2,
        decodeTailLoop_nil]
      norm_num
    · simp only [encB64, if_true, add_padding, List.cons_append, List.nil_append]
      norm_num [List.replicate]
      rw [decodeTailLoop_char cs lofc _ hv1, decodeTailLoop_char cs lofc _ hv2,
        decodeTailLoop_pad cs lofc _ _ _ _ _ _ (by omega),
        decodeTailLoop_pad cs lofc _ _ _ _ _ _ (by omega),
        decodeTailLoop_nil]
      norm_num
  · rw [emitLoop.eq_def, if_pos (by omega : (0:Nat) < 8), emitLoop.eq_def,
      if_neg (by omega : ¬ 0 + 8 < 8)]
    rw [accum2 _ _ hv1 hv2]
    simp only [Nat.shiftLeft_eq, Nat.shiftRight_eq_div_pow, and63, List.cons.injEq,
      and_true]
    norm_num
    omega

theorem tail_rt2 (cs : CharacterSet) (lofc : Nat) (usePad : Bool) (d0 d1 : Nat)
    (h0 : d0 < 256) (h1 : d1 < 256) :
    decodeTailLoop cs.decode_table lofc
        (encB64 cs.encode_table [d0, d1] ++ (if usePad then add_padding 2 else []))
        0 0 0 0 0 =
      .ok ((d0 >>> 2) <<< 58 ||| ((((d0 <<< 4) % 256) ||| (d1 >>> 4)) &&& 63) <<< 52 ||| (((d1 <<< 2) % 256) &&& 63) <<< 46, 3) ∧
    emitLoop ((d0 >>> 2) <<< 58 ||| ((((d0 <<< 4) % 256) ||| (d1 >>> 4)) &&& 63) <<< 52 ||| (((d1 <<< 2) % 256) &&& 63) <<< 46) 0 16 =
      [d0, d1] := by
  have hv1 : d0 >>> 2 < 64 := by
    rw [Nat.shiftRight_eq_div_pow]
    omega
  have hv2 : (((d0 <<< 4) % 256) ||| (d1 >>> 4)) &&& 63 < 64 := by
    rw [and63]
    omega
  have hv3 : ((d1 <<< 2) % 256) &&& 63 < 64 := by
    rw [and63]
    omega
  constructor
  · cases usePad
    · simp only [encB64, Bool.false_eq_true, if_false, List.append_nil,
        List.cons_append, List.nil_append]
      rw [decodeTailLoop_char cs lofc _ hv1,
        decodeTailLoop_char cs lofc _ hv2,
        decodeTailLoop_char cs lofc _ hv3,
        decodeTailLoop_nil]
      norm_num
    · simp only [encB64, if_true, add_padding, List.cons_append, List.nil_append]
      norm_num [List.replicate]
      rw [decodeTailLoop_char cs lofc _ hv1,
        decodeTailLoop_char cs lofc _ hv2,
        decodeTailLoop_char cs lofc _ hv3,
        decodeTailLoop_pad cs lofc _ _ _ _ _ _ (by omega),
        decodeTailLoop_nil]
      norm_num
  · rw [emitLoop.eq_def,
      if_pos (by omega : (0:Nat) < 16),
      emitLoop.eq_def,
      if_pos (by omega : (0 + 8:Nat) < 16),
      emitLoop.eq_def,
      if_neg (by omega : ¬ 0 + 8 + 8 < 16)]
    rw [accum3 _ _ _ hv1 hv2 hv3]
    rw [or_shl4 d0 d1 h1]
    simp only [Nat.shiftLeft_eq, Nat.shiftRight_eq_div_pow, and63, List.cons.injEq,
      and_true]
    norm_num
    omega

theorem tail_rt3 (cs : CharacterSet) (lofc : Nat) (usePad : Bool) (d0 d1 d2 : Nat)
    (h0 : d0 < 256) (h1 : d1 < 256) (h2 : d2 < 256) :
    decodeTailLoop cs.decode_table lofc
        (encB64 cs.encode_table [d0, d1, d2] ++ (if usePad then add_padding 3 else []))
        0 0 0 0 0 =
      .ok ((d0 >>> 2) <<< 58 ||| ((((d0 <<< 4) % 256) ||| (d1 >>> 4)) &&& 63) <<< 52 ||| ((((d1 <<< 2) % 256) ||| (d2 >>> 6)) &&& 63) <<< 46 ||| (d2 &&& 63) <<< 40, 4) ∧
    emitLoop ((d0 >>> 2) <<< 58 ||| ((((d0 <<< 4) % 256) ||| (d1 >>> 4)) &&& 63) <<< 52 ||| ((((d1 <<< 2) % 256) ||| (d2 >>> 6)) &&& 63) <<< 46 ||| (d2 &&& 63) <<< 40) 0 24 =
      [d0, d1, d2] := by
  have hv1 : d0 >>> 2 < 64 := by
    rw [Nat.shiftRight_eq_div_pow]
    omega
  have hv2 : (((d0 <<< 4) % 256) ||| (d1 >>> 4)) &&& 63 < 64 := by
    rw [and63]
    omega
  have hv3 : (((d1 <<< 2) % 256) ||| (d2 >>> 6)) &&& 63 < 64 := by
    rw [and63]
    omega
  have hv4 : d2 &&& 63 < 64 := by
    rw [and63]
    omega
  constructor
  · cases usePad
    · simp only [encB64, Bool.false_eq_true, if_false, List.append_nil,
        List.cons_append, List.nil_append]
      rw [decodeTailLoop_char cs lofc _ hv1,
        decodeTailLoop_char cs lofc _ hv2,
        decodeTailLoop_char cs lofc _ hv3,
        decodeTailLoop_char cs lofc _ hv4,
        decodeTailLoop_nil]
      norm_num
    · simp only [encB64, if_true, add_padding, List.cons_append, List.nil_append]
      norm_num [List.replicate]
      rw [decodeTailLoop_char cs lofc _ hv1,
        decodeTailLoop_char cs lofc _ hv2,
        decodeTailLoop_char cs lofc _ hv3,
        decodeTailLoop_char cs lofc _ hv4,
        decodeTailLoop_nil]
      norm_num
  · rw [emitLoop.eq_def,
      if_pos (by omega : (0:Nat) < 24),
      emitLoop.eq_def,
      if_pos (by omega : (0 + 8:Nat) < 24),
      emitLoop.eq_def,
      if_pos (by omega : (0 + 8 + 8:Nat) < 24),
      emitLoop.eq_def,
      if_neg (by omega : ¬ 0 + 8 + 8 + 8 < 24)]
    rw [accum4 _ _ _ _ hv1 hv2 hv3 hv4]
    rw [or_shl4 d0 d1 h1, or_shl2 d1 d2 h2]
    simp only [Nat.shiftLeft_eq, Nat.shiftRight_eq_div_pow, and63, List.cons.injEq,
      and_true]
    norm_num
    omega

theorem tail_rt4 (cs : CharacterSet) (lofc : Nat) (usePad : Bool) (d0 d1 d2 d3 : Nat)
    (h0 : d0 < 256) (h1 : d1 < 256) (h2 : d2 < 256) (h3 : d3 < 256) :
    decodeTailLoop cs.decode_table lofc
        (encB64 cs.encode_table [d0, d1, d2, d3] ++ (if usePad then add_padding 4 else []))
        0 0 0 0 0 =
      .ok ((d0 >>> 2) <<< 58 ||| ((((d0 <<< 4) % 256) ||| (d1 >>> 4)) &&& 63) <<< 52 ||| ((((d1 <<< 2) % 256) ||| (d2 >>> 6)) &&& 63) <<< 46 ||| (d2 &&& 63) <<< 40 ||| (d3 >>> 2) <<< 34 ||| (((d3 <<< 4) % 256) &&& 63) <<< 28, 6) ∧
    emitLoop ((d0 >>> 2) <<< 58 ||| ((((d0 <<< 4) % 256) ||| (d1 >>> 4)) &&& 63) <<< 52 ||| ((((d1 <<< 2) % 256) ||| (d2 >>> 6)) &&& 63) <<< 46 ||| (d2 &&& 63) <<< 40 ||| (d3 >>> 2) <<< 34 ||| (((d3 <<< 4) % 256) &&& 63) <<< 28) 0 32 =
      [d0, d1, d2, d3] := by
  have hv1 : d0 >>> 2 < 64 := by
    rw [Nat.shiftRight_eq_div_pow]
    omega
  have hv2 : (((d0 <<< 4) % 256) ||| (d1 >>> 4)) &&& 63 < 64 := by
    rw [and63]
    omega
  have hv3 : (((d1 <<< 2) % 256) ||| (d2 >>> 6)) &&& 63 < 64 := by
    rw [and63]
    omega
  have hv4 : d2 &&& 63 < 64 := by
    rw [and63]
    omega
  have hv5 : d3 >>> 2 < 64 := by
    rw [Nat.shiftRight_eq_div_pow]
    omega
  have hv6 : ((d3 <<< 4) % 256) &&& 63 < 64 := by
    rw [and63]
    omega
  constructor
  · cases usePad
    · simp only [encB64, Bool.false_eq_true, if_false, List.append_nil,
        List.cons_append, List.nil_append]
      rw [decodeTailLoop_char cs lofc _ hv1,
        decodeTailLoop_char cs lofc _ hv2,
        decodeTailLoop_char cs lofc _ hv3,
        decodeTailLoop_char cs lofc _ hv4,
        decodeTailLoop_char cs lofc _ hv5,
        decodeTailLoop_char cs lofc _ hv6,
        decodeTailLoop_nil]
      norm_num
    · simp only [encB64, if_true, add_padding, List.cons_append, List.nil_append]
      norm_num [List.replicate]
      rw [decodeTailLoop_char cs lofc _ hv1,
        decodeTailLoop_char cs lofc _ hv2,
        decodeTailLoop_char cs lofc _ hv3,
        decodeTailLoop_char cs lofc _ hv4,
        decodeTailLoop_char cs lofc _ hv5,
        decodeTailLoop_char cs lofc _ hv6,
        decodeTailLoop_pad cs lofc _ _ _ _ _ _ (by omega),
        decodeTailLoop_pad cs lofc _ _ _ _ _ _ (by omega),
        decodeTailLoop_nil]
      norm_num
  · rw [emitLoop.eq_def,
      if_pos (by omega : (0:Nat) < 32),
      emitLoop.eq_def,
      if_pos (by omega : (0 + 8:Nat) < 32),
      emitLoop.eq_def,
      if_pos (by omega : (0 + 8 + 8:Nat) < 32),
      emitLoop.eq_def,
      if_pos (by omega : (0 + 8 + 8 + 8:Nat) < 32),
      emitLoop.eq_def,
      if_neg (by omega : ¬ 0 + 8 + 8 + 8 + 8 < 32)]
    rw [accum6 _ _ _ _ _ _ hv1 hv2 hv3 hv4 hv5 hv6]
    rw [or_shl4 d0 d1 h1, or_shl2 d1 d2 h2]
    simp only [Nat.shiftLeft_eq, Nat.shiftRight_eq_div_pow, and63, List.cons.injEq,
      and_true]
    norm_num
    omega

theorem tail_rt5 (cs : CharacterSet) (lofc : Nat) (usePad : Bool) (d0 d1 d2 d3 d4 : Nat)
    (h0 : d0 < 256) (h1 : d1 < 256) (h2 : d2 < 256) (h3 : d3 < 256) (h4 : d4 < 256) :
    decodeTailLoop cs.decode_table lofc
        (encB64 cs.encode_table [d0, d1, d2, d3, d4] ++ (if usePad then add_padding 5 else []))
        0 0 0 0 0 =
      .ok ((d0 >>> 2) <<< 58 ||| ((((d0 <<< 4) % 256) ||| (d1 >>> 4)) &&& 63) <<< 52 ||| ((((d1 <<< 2) % 256) ||| (d2 >>> 6)) &&& 63) <<< 46 ||| (d2 &&& 63) <<< 40 ||| (d3 >>> 2) <<< 34 ||| ((((d3 <<< 4) % 256) ||| (d4 >>> 4)) &&& 63) <<< 28 ||| (((d4 <<< 2) % 256) &&& 63) <<< 22, 7) ∧
    emitLoop ((d0 >>> 2) <<< 58 ||| ((((d0 <<< 4) % 256) ||| (d1 >>> 4)) &&& 63) <<< 52 ||| ((((d1 <<< 2) % 256) ||| (d2 >>> 6)) &&& 63) <<< 46 ||| (d2 &&& 63) <<< 40 ||| (d3 >>> 2) <<< 34 ||| ((((d3 <<< 4) % 256) ||| (d4 >>> 4)) &&& 63) <<< 28 ||| (((d4 <<< 2) % 256) &&& 63) <<< 22) 0 40 =
      [d0, d1, d2, d3, d4] := by
  have hv1 : d0 >>> 2 < 64 := by
    rw [Nat.shiftRight_eq_div_pow]
    omega
  have hv2 : (((d0 <<< 4) % 256) ||| (d1 >>> 4)) &&& 63 < 64 := by
    rw [and63]
    omega
  have hv3 : (((d1 <<< 2) % 256) ||| (d2 >>> 6)) &&& 63 < 64 := by
    rw [and63]
    omega
  have hv4 : d2 &&& 63 < 64 := by
    rw [and63]
    omega
  have hv5 : d3 >>> 2 < 64 := by
    rw [Nat.shiftRight_eq_div_pow]
    omega
  have hv6 : (((d3 <<< 4) % 256) ||| (d4 >>> 4)) &&& 63 < 64 := by
    rw [and63]
    omega
  have hv7 : ((d4 <<< 2) % 256) &&& 63 < 64 := by
    rw [and63]
    omega
  constructor
  · cases usePad
    · simp only [encB64, Bool.false_eq_true, if_false, List.append_nil,
        List.cons_append, List.nil_append]
      rw [decodeTailLoop_char cs lofc _ hv1,
        decodeTailLoop_char cs lofc _ hv2,
        decodeTailLoop_char cs lofc _ hv3,
        decodeTailLoop_char cs lofc _ hv4,
        decodeTailLoop_char cs lofc _ hv5,
        decodeTailLoop_char cs lofc _ hv6,
        decodeTailLoop_char cs lofc _ hv7,
        decodeTailLoop_nil]
      norm_num
    · simp only [encB64, if_true, add_padding, List.cons_append, List.nil_append]
      norm_num [List.replicate]
      rw [decodeTailLoop_char cs lofc _ hv1,
        decodeTailLoop_char cs lofc _ hv2,
        decodeTailLoop_char cs lofc _ hv3,
        decodeTailLoop_char cs lofc _ hv4,
        decodeTailLoop_char cs lofc _ hv5,
        decodeTailLoop_char cs lofc _ hv6,
        decodeTailLoop_char cs lofc _ hv7,
        decodeTailLoop_pad cs lofc _ _ _ _ _ _ (by omega),
        decodeTailLoop_nil]
      norm_num
  · rw [emitLoop.eq_def,
      if_pos (by omega : (0:Nat) < 40),
      emitLoop.eq_def,
      if_pos (by omega : (0 + 8:Nat) < 40),
      emitLoop.eq_def,
      if_pos (by omega : (0 + 8 + 8:Nat) < 40),
      emitLoop.eq_def,
      if_pos (by omega : (0 + 8 + 8 + 8:Nat) < 40),
      emitLoop.eq_def,
      if_pos (by omega : (0 + 8 + 8 + 8 + 8:Nat) < 40),
      emitLoop.eq_def,
      if_neg (by omega : ¬ 0 + 8 + 8 + 8 + 8 + 8 < 40)]
    rw [accum7 _ _ _ _ _ _ _ hv1 hv2 hv3 hv4 hv5 hv6 hv7]
    rw [or_shl4 d0 d1 h1, or_shl2 d1 d2 h2, or_shl4 d3 d4 h4]
    simp only [Nat.shiftLeft_eq, Nat.shiftRight_eq_div_pow, and63, List.cons.injEq,
      and_true]
    norm_num
    omega

theorem tail_rt6 (cs : CharacterSet) (lofc : Nat) (usePad : Bool) (d0 d1 d2 d3 d4 d5 : Nat)
    (h0 : d0 < 256) (h1 : d1 < 256) (h2 : d2 < 256) (h3 : d3 < 256) (h4 : d4 < 256) (h5 : d5 < 256) :
    decodeTailLoop cs.decode_table lofc
        (encB64 cs.encode_table [d0, d1, d2, d3, d4, d5] ++ (if usePad then add_padding 6 else []))
        0 0 0 0 0 =
      .ok ((d0 >>> 2) <<< 58 ||| ((((d0 <<< 4) % 256) ||| (d1 >>> 4)) &&& 63) <<< 52 ||| ((((d1 <<< 2) % 256) ||| (d2 >>> 6)) &&& 63) <<< 46 ||| (d2 &&& 63) <<< 40 ||| (d3 >>> 2) <<< 34 ||| ((((d3 <<< 4) % 256) ||| (d4 >>> 4)) &&& 63) <<< 28 ||| ((((d4 <<< 2) % 256) ||| (d5 >>> 6)) &&& 63) <<< 22 ||| (d5 &&& 63) <<< 16, 8) ∧
    emitLoop ((d0 >>> 2) <<< 58 ||| ((((d0 <<< 4) % 256) ||| (d1 >>> 4)) &&& 63) <<< 52 ||| ((((d1 <<< 2) % 256) ||| (d2 >>> 6)) &&& 63) <<< 46 ||| (d2 &&& 63) <<< 40 ||| (d3 >>> 2) <<< 34 ||| ((((d3 <<< 4) % 256) ||| (d4 >>> 4)) &&& 63) <<< 28 ||| ((((d4 <<< 2) % 256) ||| (d5 >>> 6)) &&& 63) <<< 22 ||| (d5 &&& 63) <<< 16) 0 48 =
      [d0, d1, d2, d3, d4, d5] := by
  have hv1 : d0 >>> 2 < 64 := by
    rw [Nat.shiftRight_eq_div_pow]
    omega
  have hv2 : (((d0 <<< 4) % 256) ||| (d1 >>> 4)) &&& 63 < 64 := by
    rw [and63]
    omega
  have hv3 : (((d1 <<< 2) % 256) ||| (d2 >>> 6)) &&& 63 < 64 := by
    rw [and63]
    omega
  have hv4 : d2 &&& 63 < 64 := by
    rw [and63]
    omega
  have hv5 : d3 >>> 2 < 64 := by
    rw [Nat.shiftRight_eq_div_pow]
    omega
  have hv6 : (((d3 <<< 4) % 256) ||| (d4 >>> 4)) &&& 63 < 64 := by
    rw [and63]
    omega
  have hv7 : (((d4 <<< 2) % 256) ||| (d5 >>> 6)) &&& 63 < 64 := by
    rw [and63]
    omega
  have hv8 : d5 &&& 63 < 64 := by
    rw [and63]
    omega
  constructor
  · cases usePad
    · simp only [encB64, Bool.false_eq_true, if_false, List.append_nil,
        List.cons_append, List.nil_append]
      rw [decodeTailLoop_char cs lofc _ hv1,
        decodeTailLoop_char cs lofc _ hv2,
        decodeTailLoop_char cs lofc _ hv3,
        decodeTailLoop_char cs lofc _ hv4,
        decodeTailLoop_char cs lofc _ hv5,
        decodeTailLoop_char cs lofc _ hv6,
        decodeTailLoop_char cs lofc _ hv7,
        decodeTailLoop_char cs lofc _ hv8,
        decodeTailLoop_nil]
      norm_num
    · simp only [encB64, if_true, add_padding, List.cons_append, List.nil_append]
      norm_num [List.replicate]
      rw [decodeTailLoop_char cs lofc _ hv1,
        decodeTailLoop_char cs lofc _ hv2,
        decodeTailLoop_char cs lofc _ hv3,
        decodeTailLoop_char cs lofc _ hv4,
        decodeTailLoop_char cs lofc _ hv5,
        decodeTailLoop_char cs lofc _ hv6,
        decodeTailLoop_char cs lofc _ hv7,
        decodeTailLoop_char cs lofc _ hv8,
        decodeTailLoop_nil]
      norm_num
  · rw [emitLoop.eq_def,
      if_pos (by omega : (0:Nat) < 48),
      emitLoop.eq_def,
      if_pos (by omega : (0 + 8:Nat) < 48),
      emitLoop.eq_def,
      if_pos (by omega : (0 + 8 + 8:Nat) < 48),
      emitLoop.eq_def,
      if_pos (by omega : (0 + 8 + 8 + 8:Nat) < 48),
      emitLoop.eq_def,
      if_pos (by omega : (0 + 8 + 8 + 8 + 8:Nat) < 48),
      emitLoop.eq_def,
      if_pos (by omega : (0 + 8 + 8 + 8 + 8 + 8:Nat) < 48),
      emitLoop.eq_def,
      if_neg (by omega : ¬ 0 + 8 + 8 + 8 + 8 + 8 + 8 < 48)]
    rw [accum_eq _ _ _ _ _ _ _ _ hv1 hv2 hv3 hv4 hv5 hv6 hv7 hv8]
    rw [or_shl4 d0 d1 h1, or_shl2 d1 d2 h2, or_shl4 d3 d4 h4, or_shl2 d4 d5 h5]
    simp only [Nat.shiftLeft_eq, Nat.shiftRight_eq_div_pow, and63, List.cons.injEq,
      and_true]
    norm_num
    omega

theorem decode_split_arith (L padlen : Nat)
    (hp : padlen = (3 - L % 3) % 3 ∨ padlen = 0) :
    8 ∣ length_of_full_chunks (4 * (L / 3) + encRemChars (L % 3) + padlen) ∧
    6 * (length_of_full_chunks (4 * (L / 3) + encRemChars (L % 3) + padlen) / 8) ≤ L ∧
    L - 6 * (length_of_full_chunks (4 * (L / 3) + encRemChars (L % 3) + padlen) / 8) ≤ 6 ∧
    length_of_full_chunks (4 * (L / 3) + encRemChars (L % 3) + padlen) ≤
      4 * (L / 3) + encRemChars (L % 3) := by
  have h3 : L % 3 = 0 ∨ L % 3 = 1 ∨ L % 3 = 2 := by omega
  rcases h3 with h3 | h3 | h3 <;> rcases hp with hp | hp <;>
    simp only [h3, hp, encRemChars, length_of_full_chunks] <;>
    split_ifs <;> omega

theorem encB64_drop (t : Nat → Nat) (data : List Nat) (j : Nat)
    (hj : 6 * j ≤ data.length) (pads : List Nat) :
    (encB64 t data ++ pads).drop (8 * j) = encB64 t (data.drop (6 * j)) ++ pads := by
  conv_lhs => rw [show data = data.take (6 * j) ++ data.drop (6 * j) from
    (List.take_append_drop _ _).symm]
  rw [encB64_append _ _ _ (by rw [List.length_take]; omega)]
  rw [List.append_assoc, List.drop_left' (encB64_take_length _ data j hj)]

theorem decode_rt_core (cs : CharacterSet) (pd : Bool) (lw : LineWrap)
    (usePad : Bool) (data buffer : List Nat) (h256 : ∀ b ∈ data, b < 256) :
    decode_config_buf
        (encB64 cs.encode_table data ++
          (if usePad then add_padding data.length else []))
        ⟨cs, pd, false, lw⟩ buffer = (buffer ++ data, none) := by
  set pads : List Nat := if usePad then add_padding data.length else [] with hpads
  set E := encB64 cs.encode_table data ++ pads with hE
  have hpadlen : pads.length = (if usePad then (3 - data.length % 3) % 3 else 0) := by
    cases usePad <;> simp [hpads, add_padding]
  have hElen : E.length =
      4 * (data.length / 3) + encRemChars (data.length % 3) + pads.length := by
    rw [hE, List.length_append, encB64_length]
  obtain ⟨hdvd, h6J, hrem, hle4⟩ := decode_split_arith data.length pads.length (by
    cases usePad <;> simp_all)
  rw [← hElen] at hdvd h6J hrem hle4
  set lofc := length_of_full_chunks E.length with hlofc
  set J := lofc / 8 with hJ
  have hl8 : lofc = 8 * J := (Nat.mul_div_cancel' hdvd).symm
  have hunf : decode_config_buf E ⟨cs, pd, false, lw⟩ buffer =
      (match decodeFastLoop cs.decode_table E (length_of_full_chunks E.length)
          (buffer ++ List.replicate (length_of_full_chunks E.length / 8 * 6 + 2) 0)
          buffer.length 0 with
        | .error (bbe, bad) => (bbe, some (.InvalidByte bad (E.getD bad 0)))
        | .ok (bb1, _) =>
          let bb2 := bb1.take (bb1.length - 2)
          match decodeTailLoop cs.decode_table (length_of_full_chunks E.length)
              (E.drop (length_of_full_chunks E.length)) 0 0 0 0 0 with
          | .error e => (bb2, some e)
          | .ok (leftover, morsels) =>
            match morsel_bits morsels with
            | none => (bb2, some .InvalidLength)
            | some bits => (bb2 ++ emitLoop leftover 0 bits, none)) := rfl
  rw [hunf]
  have hfast := decodeFastLoop_ok cs data pads buffer h256 J lofc hl8 h6J J 0
    (by omega) (by omega)
  simp only [Nat.mul_zero, List.take_zero, List.append_nil, Nat.sub_zero,
    Nat.add_zero] at hfast
  rw [← hlofc, ← hJ, hfast]
  have htklen : (data.take (6 * J)).length = 6 * J := by
    rw [List.length_take]
    omega
  have hbb1len : (buffer ++ data.take (6 * J) ++ List.replicate 2 0).length =
      buffer.length + 6 * J + 2 := by
    simp only [List.length_append, List.length_replicate, htklen]
  have hbb2 : (buffer ++ data.take (6 * J) ++ List.replicate 2 0).take
      ((buffer ++ data.take (6 * J) ++ List.replicate 2 0).length - 2) =
      buffer ++ data.take (6 * J) := by
    rw [hbb1len]
    rw [show buffer.length + 6 * J + 2 - 2 =
      (buffer ++ data.take (6 * J)).length from by simp [htklen]]
    rw [List.take_left]
  have hEtail : E.drop lofc = encB64 cs.encode_table (data.drop (6 * J)) ++
      (if usePad then add_padding (data.drop (6 * J)).length else []) := by
    rw [hE, hl8, encB64_drop cs.encode_table data J h6J pads]
    congr 1
    rw [hpads]
    cases usePad
    · simp
    · simp only [if_true]
      unfold add_padding
      congr 2
      rw [List.length_drop]
      omega
  have hmemd : ∀ b ∈ data.drop (6 * J), b < 256 :=
    fun b hb => h256 b (List.mem_of_mem_drop hb)
  have hlen' : (data.drop (6 * J)).length ≤ 6 := by
    rw [List.length_drop]
    omega
  have htc : data.take (6 * J) ++ data.drop (6 * J) = data := List.take_append_drop _ _
  simp only []
  rw [hbb2, hEtail]
  rcases hd : data.drop (6 * J) with _ | ⟨e0, _ | ⟨e1, _ | ⟨e2, _ | ⟨e3, _ | ⟨e4,
    _ | ⟨e5, rest⟩⟩⟩⟩⟩⟩
  · rw [hd] at htc
    have hemp : (if usePad = true then add_padding ([] : List Nat).length else []) =
        ([] : List Nat) := by
      cases usePad <;> simp [add_padding]
    rw [hemp]
    rw [show encB64 cs.encode_table [] = [] from rfl]
    rw [List.nil_append, decodeTailLoop_nil]
    simp only [morsel_bits]
    rw [show emitLoop 0 0 0 = [] from by rw [emitLoop.eq_def]; simp]
    rw [List.append_nil] at htc
    rw [List.append_nil, htc]
  · rw [hd] at htc
    have hmem' : ∀ b ∈ ([e0] : List Nat), b < 256 := by
      rw [← hd]
      exact hmemd
    have h0 : e0 < 256 := hmem' e0 (by simp)
    have hlenK : ([e0] : List Nat).length = 1 := rfl
    rw [hlenK]
    rw [(tail_rt1 cs lofc usePad e0 h0).1]
    simp only [morsel_bits]
    rw [(tail_rt1 cs lofc usePad e0 h0).2]
    rw [List.append_assoc, htc]
  · rw [hd] at htc
    have hmem' : ∀ b ∈ ([e0, e1] : List Nat), b < 256 := by
      rw [← hd]
      exact hmemd
    have h0 : e0 < 256 := hmem' e0 (by simp)
    have h1 : e1 < 256 := hmem' e1 (by simp)
    have hlenK : ([e0, e1] : List Nat).length = 2 := rfl
    rw [hlenK]
    rw [(tail_rt2 cs lofc usePad e0 e1 h0 h1).1]
    simp only [morsel_bits]
    rw [(tail_rt2 cs lofc usePad e0 e1 h0 h1).2]
    rw [List.append_assoc, htc]
  · rw [hd] at htc
    have hmem' : ∀ b ∈ ([e0, e1, e2] : List Nat), b < 256 := by
      rw [← hd]
      exact hmemd
    have h0 : e0 < 256 := hmem' e0 (by simp)
    have h1 : e1 < 256 := hmem' e1 (by simp)
    have h2 : e2 < 256 := hmem' e2 (by simp)
    have hlenK : ([e0, e1, e2] : List Nat).length = 3 := rfl
    rw [hlenK]
    rw [(tail_rt3 cs lofc usePad e0 e1 e2 h0 h1 h2).1]
    simp only [morsel_bits]
    rw [(tail_rt3 cs lofc usePad e0 e1 e2 h0 h1 h2).2]
    rw [List.append_assoc, htc]
  · rw [hd] at htc
    have hmem' : ∀ b ∈ ([e0, e1, e2, e3] : List Nat), b < 256 := by
      rw [← hd]
      exact hmemd
    have h0 : e0 < 256 := hmem' e0 (by simp)
    have h1 : e1 < 256 := hmem' e1 (by simp)
    have h2 : e2 < 256 := hmem' e2 (by simp)
    have h3 : e3 < 256 := hmem' e3 (by simp)
    have hlenK : ([e0, e1, e2, e3] : List Nat).length = 4 := rfl
    rw [hlenK]
    rw [(tail_rt4 cs lofc usePad e0 e1 e2 e3 h0 h1 h2 h3).1]
    simp only [morsel_bits]
    rw [(tail_rt4 cs lofc usePad e0 e1 e2 e3 h0 h1 h2 h3).2]
    rw [List.append_assoc, htc]
  · rw [hd] at htc
    have hmem' : ∀ b ∈ ([e0, e1, e2, e3, e4] : List Nat), b < 256 := by
      rw [← hd]
      exact hmemd
    have h0 : e0 < 256 := hmem' e0 (by simp)
    have h1 : e1 < 256 := hmem' e1 (by simp)
    have h2 : e2 < 256 := hmem' e2 (by simp)
    have h3 : e3 < 256 := hmem' e3 (by simp)
    have h4 : e4 < 256 := hmem' e4 (by simp)
    have hlenK : ([e0, e1, e2, e3, e4] : List Nat).length = 5 := rfl
    rw [hlenK]
    rw [(tail_rt5 cs lofc usePad e0 e1 e2 e3 e4 h0 h1 h2 h3 h4).1]
    simp only [morsel_bits]
    rw [(tail_rt5 cs lofc usePad e0 e1 e2 e3 e4 h0 h1 h2 h3 h4).2]
    rw [List.append_assoc, htc]
  · rw [hd] at htc
    have hrest : rest = [] := by
      rw [hd] at hlen'
      simp only [List.length_cons] at hlen'
      have hz : rest.length = 0 := by omega
      exact List.eq_nil_of_length_eq_zero hz
    subst hrest
    have hmem' : ∀ b ∈ ([e0, e1, e2, e3, e4, e5] : List Nat), b < 256 := by
      rw [← hd]
      exact hmemd
    have h0 : e0 < 256 := hmem' e0 (by simp)
    have h1 : e1 < 256 := hmem' e1 (by simp)
    have h2 : e2 < 256 := hmem' e2 (by simp)
    have h3 : e3 < 256 := hmem' e3 (by simp)
    have h4 : e4 < 256 := hmem' e4 (by simp)
    have h5 : e5 < 256 := hmem' e5 (by simp)
    have hlenK : ([e0, e1, e2, e3, e4, e5] : List Nat).length = 6 := rfl
    rw [hlenK]
    rw [(tail_rt6 cs lofc usePad e0 e1 e2 e3 e4 e5 h0 h1 h2 h3 h4 h5).1]
    simp only [morsel_bits]
    rw [(tail_rt6 cs lofc usePad e0 e1 e2 e3 e4 e5 h0 h1 h2 h3 h4 h5).2]
    rw [List.append_assoc, htc]

theorem decode_config_buf_strip (input : List Nat) (config : Config) (buffer : List Nat) :
    decode_config_buf input config buffer =
      decode_config_buf (stripInput config.strip_whitespace input)
        ⟨config.char_set, config.pad, false, config.line_wrap⟩ buffer := rfl

theorem decode_config_buf_rt (input : List Nat) (config : Config) (buffer : List Nat)
    (data : List Nat) (usePad : Bool) (h256 : ∀ b ∈ data, b < 256)
    (hib : stripInput config.strip_whitespace input =
      encB64 config.char_set.encode_table data ++
        (if usePad then add_padding data.length else [])) :
    decode_config_buf input config buffer = (buffer ++ data, none) := by
  rw [decode_config_buf_strip, hib]
  exact decode_rt_core config.char_set config.pad config.line_wrap usePad data buffer h256

theorem decodeFastLoop_base (t : Nat → Nat) (ib bb : List Nat) (lofc oi ii : Nat)
    (h : ¬ ii < lofc) :
    decodeFastLoop t ib lofc bb oi ii = .ok (bb, oi) := by
  rw [decodeFastLoop.eq_def, if_neg h]

theorem tail_err_invalid (t : Nat → Nat) (lofc : Nat) (b : Nat) (rest : List Nat)
    (i lo m fp : Nat) (hb61 : ¬ b = 61) (hbinv : t b = INVALID_VALUE) :
    decodeTailLoop t lofc (b :: rest) i lo m 0 fp =
      .error (.InvalidByte (lofc + i) b) := by
  simp only [decodeTailLoop]
  rw [if_neg hb61, if_neg (by omega : ¬ 0 < 0), if_pos hbinv]

theorem tail_err_earlypad (t : Nat → Nat) (lofc : Nat) (rest : List Nat)
    (i lo m p fp : Nat) (hi : i % 4 < 2) :
    decodeTailLoop t lofc (61 :: rest) i lo m p fp =
      .error (.InvalidByte (lofc + i) 61) := by
  simp only [decodeTailLoop]
  rw [if_pos True.intro, if_pos hi]

theorem tail_err_after_pad (t : Nat → Nat) (lofc : Nat) (b : Nat) (rest : List Nat)
    (i lo m p fp : Nat) (hb : ¬ b = 61) (hp : 0 < p) :
    decodeTailLoop t lofc (b :: rest) i lo m p fp =
      .error (.InvalidByte (lofc + fp) 61) := by
  simp only [decodeTailLoop]
  rw [if_neg hb, if_pos hp]

theorem tail_run_valid (t : Nat → Nat) (lofc : Nat) :
    ∀ (pre rest : List Nat) (i lo m fp : Nat),
      (∀ b ∈ pre, ¬ b = 61 ∧ ¬ t b = INVALID_VALUE) →
      ∃ lo', decodeTailLoop t lofc (pre ++ rest) i lo m 0 fp =
        decodeTailLoop t lofc rest (i + pre.length) lo' (m + pre.length) 0 fp
  | [], rest, i, lo, m, fp, _ => ⟨lo, by simp⟩
  | b :: pre, rest, i, lo, m, fp, h => by
    obtain ⟨hb61, hbinv⟩ := h b (by simp)
    obtain ⟨lo', hlo'⟩ := tail_run_valid t lofc pre rest (i + 1)
      (lo ||| (t b <<< (64 - (m + 1) * 6))) (m + 1) fp
      (fun c hc => h c (by simp [hc]))
    refine ⟨lo', ?_⟩
    rw [List.cons_append]
    simp only [decodeTailLoop]
    rw [if_neg hb61, if_neg (by omega : ¬ 0 < 0), if_neg hbinv]
    rw [hlo']
    simp only [List.length_cons]
    rw [show i + 1 + pre.length = i + (pre.length + 1) from by omega,
      show m + 1 + pre.length = m + (pre.length + 1) from by omega]

theorem tail_run_pads_pos (t : Nat → Nat) (lofc : Nat) :
    ∀ (pads rest : List Nat) (i lo m p fp : Nat), 0 < p →
      (∀ b ∈ pads, b = 61) → (∀ k, k < pads.length → ¬ (i + k) % 4 < 2) →
      decodeTailLoop t lofc (pads ++ rest) i lo m p fp =
        decodeTailLoop t lofc rest (i + pads.length) lo m (p + pads.length) fp
  | [], rest, i, lo, m, p, fp, _, _, _ => by simp
  | b :: pads, rest, i, lo, m, p, fp, hp, hb, hq => by
    have hb61 : b = 61 := hb b (by simp)
    subst hb61
    rw [List.cons_append]
    simp only [decodeTailLoop]
    rw [if_pos True.intro, if_neg (by simpa using hq 0 (by simp)),
      if_neg (by omega : ¬ p = 0)]
    rw [tail_run_pads_pos t lofc pads rest (i + 1) lo m (p + 1) fp (by omega)
      (fun c hc => hb c (by simp [hc]))
      (fun k hk => by
        have := hq (k + 1) (by simp; omega)
        rw [show i + 1 + k = i + (k + 1) from by omega]
        exact this)]
    simp only [List.length_cons]
    rw [show i + 1 + pads.length = i + (pads.length + 1) from by omega,
      show p + 1 + pads.length = p + (pads.length + 1) from by omega]

theorem filter_nonws_self (l : List Nat)
    (h : ∀ b ∈ l, whitespaceBytes.contains b = false) :
    l.filter (fun b => !(whitespaceBytes.contains b)) = l :=
  List.filter_eq_self.mpr (fun a ha => by rw [h a ha]; rfl)

theorem content_not_ws (cs : CharacterSet) (data : List Nat) (usePad : Bool)
    (h256 : ∀ b ∈ data, b < 256) :
    ∀ b ∈ encB64 cs.encode_table data ++
        (if usePad then add_padding data.length else []),
      whitespaceBytes.contains b = false := by
  intro a ha
  rw [List.mem_append] at ha
  rcases ha with ha | ha
  · obtain ⟨v, hv, rfl⟩ := encB64_mem cs.encode_table data h256 a ha
    exact encode_table_not_ws cs v hv
  · have h61 : a = 61 := by
      cases usePad
      · simp at ha
      · rw [if_pos rfl] at ha
        unfold add_padding at ha
        exact List.eq_of_mem_replicate ha
    subst h61
    decide

theorem wrapStream_filter (w : Nat) (eb : List Nat) (p : Nat → Bool)
    (he : ∀ b ∈ eb, p b = false) :
    ∀ (n : Nat) (content : List Nat), content.length ≤ n →
      (wrapStream w eb content).filter p = content.filter p := by
  intro n
  induction n with
  | zero =>
    intro content hc
    rw [wrapStream_le w eb content (by omega)]
  | succ n ih =>
    intro content hc
    by_cases hcase : content.length ≤ w ∨ w = 0
    · rw [wrapStream_le w eb content hcase]
    · push_neg at hcase
      obtain ⟨h1, h2⟩ := hcase
      rw [wrapStream_gt w eb content (by omega) (by omega)]
      rw [List.filter_append, List.filter_append]
      rw [show List.filter p eb = [] from
        List.filter_eq_nil.mpr (fun a ha => by simp [he a ha])]
      rw [List.append_nil]
      rw [ih (content.drop w) (by rw [List.length_drop]; omega)]
      rw [← List.filter_append, List.take_append_drop]

theorem strip_encoded (config : Config) (data : List Nat)
    (h256 : ∀ b ∈ data, b < 256)
    (hok : config.line_wrap = .NoWrap ∨ config.strip_whitespace = true) :
    stripInput config.strip_whitespace (encode_config data config) =
      encB64 config.char_set.encode_table data ++
        (if config.pad then add_padding data.length else []) := by
  unfold encode_config
  rw [encode_config_buf_eq data config [] h256, List.nil_append]
  have hself := filter_nonws_self _ (content_not_ws config.char_set data config.pad h256)
  cases hlw : config.line_wrap with
  | NoWrap =>
    cases hsw : config.strip_whitespace with
    | false => rfl
    | true =>
      unfold stripInput
      rw [if_pos rfl]
      exact hself
  | Wrap w e =>
    have hsw : config.strip_whitespace = true := by
      rcases hok with h | h
      · rw [hlw] at h
        simp at h
      · exact h
    rw [hsw]
    unfold stripInput
    rw [if_pos rfl]
    have he : ∀ b ∈ e.bytes, (fun b => !(whitespaceBytes.contains b)) b = false := by
      cases e <;> decide
    rw [wrapStream_filter w e.bytes _ he _ _ (le_refl _)]
    exact hself

theorem roundtrip_master (config : Config) (data : List Nat)
    (h256 : ∀ b ∈ data, b < 256)
    (hok : config.line_wrap = .NoWrap ∨ config.strip_whitespace = true) :
    decode_config (encode_config data config) config = .ok data := by
  have h := decode_config_buf_rt (encode_config data config) config [] data config.pad
    h256 (strip_encoded config data h256 hok)
  unfold decode_config
  rw [h, List.nil_append]

theorem decode_tail_error_master (input : List Nat) (config : Config)
    (data tail : List Nat) (h256 : ∀ b ∈ data, b < 256)
    (hd6 : data.length % 6 = 0) (htl1 : 1 ≤ tail.length) (htl8 : tail.length ≤ 8)
    (hib : stripInput config.strip_whitespace input =
      encB64 config.char_set.encode_table data ++ tail)
    (e : DecodeError)
    (htail : decodeTailLoop config.char_set.decode_table
        (4 * (data.length / 3)) tail 0 0 0 0 0 = .error e) :
    decode_config input config = .error e := by
  set k := data.length / 6 with hk
  have hL : data.length = 6 * k := by omega
  have hlen : (encB64 config.char_set.encode_table data ++ tail).length =
      8 * k + tail.length := by
    rw [List.length_append, encB64_length]
    rw [show data.length % 3 = 0 from by omega]
    simp only [encRemChars]
    omega
  have hlofc : length_of_full_chunks
      (encB64 config.char_set.encode_table data ++ tail).length = 8 * k := by
    rw [hlen]
    unfold length_of_full_chunks
    rcases Nat.lt_or_ge tail.length 8 with h | h
    · rw [if_neg (by omega)]
      omega
    · have h8 : tail.length = 8 := by omega
      rw [h8, if_pos (by omega)]
      omega
  have hunf : decode_config_buf
      (encB64 config.char_set.encode_table data ++ tail)
      ⟨config.char_set, config.pad, false, config.line_wrap⟩ [] =
      (match decodeFastLoop config.char_set.decode_table
          (encB64 config.char_set.encode_table data ++ tail)
          (length_of_full_chunks (encB64 config.char_set.encode_table data ++ tail).length)
          ([] ++ List.replicate
            (length_of_full_chunks (encB64 config.char_set.encode_table data ++ tail).length / 8 * 6 + 2) 0)
          (List.length ([] : List Nat)) 0 with
        | .error (bbe, bad) => (bbe, some (.InvalidByte bad
            ((encB64 config.char_set.encode_table data ++ tail).getD bad 0)))
        | .ok (bb1, _) =>
          let bb2 := bb1.take (bb1.length - 2)
          match decodeTailLoop config.char_set.decode_table
              (length_of_full_chunks (encB64 config.char_set.encode_table data ++ tail).length)
              ((encB64 config.char_set.encode_table data ++ tail).drop
                (length_of_full_chunks (encB64 config.char_set.encode_table data ++ tail).length))
              0 0 0 0 0 with
          | .error e => (bb2, some e)
          | .ok (leftover, morsels) =>
            match morsel_bits morsels with
            | none => (bb2, some .InvalidLength)
            | some bits => (bb2 ++ emitLoop leftover 0 bits, none)) := rfl
  have hfast := decodeFastLoop_ok config.char_set data tail [] h256 k (8 * k) rfl
    (by omega) k 0 (by omega) (by omega)
  simp only [Nat.mul_zero, List.take_zero, List.append_nil, Nat.sub_zero,
    Nat.add_zero, List.nil_append, List.length_nil] at hfast
  have hdrop : (encB64 config.char_set.encode_table data ++ tail).drop (8 * k) = tail := by
    rw [encB64_drop _ data k (by omega) tail]
    rw [List.drop_eq_nil_of_le (by omega)]
    rfl
  rw [show 4 * (data.length / 3) = 8 * k from by omega] at htail
  have hbuf : decode_config_buf input config [] =
      ((List.take (6 * k) data ++ List.replicate 2 0).take
        ((List.take (6 * k) data ++ List.replicate 2 0).length - 2), some e) := by
    rw [decode_config_buf_strip, hib, hunf, hlofc]
    rw [show 8 * k / 8 = k from by omega]
    simp only [List.nil_append, List.length_nil]
    rw [hfast, hdrop, htail]
  unfold decode_config
  rw [hbuf]

theorem emitLoop_range :
    ∀ (n : Nat) (a lo : Nat),
      emitLoop lo (8 * a) (8 * a + 8 * n) =
        (List.range n).map (fun i => (lo >>> (56 - (8 * a + 8 * i))) % 256) := by
  intro n
  induction n with
  | zero =>
    intro a lo
    rw [emitLoop.eq_def, if_neg (by omega)]
    rfl
  | succ n ih =>
    intro a lo
    rw [emitLoop.eq_def, if_pos (by omega)]
    rw [show 8 * a + 8 = 8 * (a + 1) from by omega]
    rw [show 8 * a + 8 * (n + 1) = 8 * (a + 1) + 8 * n from by omega]
    rw [ih (a + 1) lo]
    rw [List.range_succ_eq_map, List.map_cons, List.map_map]
    rw [show 8 * a + 8 * 0 = 8 * a from by omega]
    have htail : List.map
        ((fun i => lo >>> (56 - (8 * a + 8 * i)) % 256) ∘ Nat.succ) (List.range n) =
        List.map (fun i => lo >>> (56 - (8 * (a + 1) + 8 * i)) % 256) (List.range n) := by
      apply List.map_congr_left
      intro i _
      simp only [Function.comp, Nat.succ_eq_add_one]
      rw [show 8 * a + 8 * (i + 1) = 8 * (a + 1) + 8 * i from by omega]
    rw [htail]

theorem emitLoop_one (lo : Nat) : emitLoop lo 0 8 = [(lo >>> 56) % 256] := by
  have h := emitLoop_range 1 0 lo
  simpa using h

theorem wrapStream_mem (w : Nat) (eb : List Nat) :
    ∀ (n : Nat) (c : List Nat), c.length ≤ n →
      ∀ b ∈ wrapStream w eb c, b ∈ c ∨ b ∈ eb := by
  intro n
  induction n with
  | zero =>
    intro c hc b hb
    rw [wrapStream_le w eb c (by omega)] at hb
    exact .inl hb
  | succ n ih =>
    intro c hc b hb
    by_cases hcase : c.length ≤ w ∨ w = 0
    · rw [wrapStream_le w eb c hcase] at hb
      exact .inl hb
    · push_neg at hcase
      rw [wrapStream_gt w eb c (by omega) (by omega)] at hb
      simp only [List.mem_append] at hb
      rcases hb with (hb | hb) | hb
      · exact .inl (List.mem_of_mem_take hb)
      · exact .inr hb
      · rcases ih (c.drop w) (by rw [List.length_drop]; omega) b hb with h | h
        · exact .inl (List.mem_of_mem_drop h)
        · exact .inr h

theorem decode_config_small (input : List Nat) (config : Config)
    (hlen : (stripInput config.strip_whitespace input).length ≤ 8) :
    decode_config input config =
      (match decodeTailLoop config.char_set.decode_table 0
          (stripInput config.strip_whitespace input) 0 0 0 0 0 with
       | .error e => .error e
       | .ok (lo, m) =>
         match morsel_bits m with
         | none => .error .InvalidLength
         | some bits => .ok (emitLoop lo 0 bits)) := by
  have hlofc : length_of_full_chunks
      (stripInput config.strip_whitespace input).length = 0 := by
    unfold length_of_full_chunks
    split_ifs <;> omega
  unfold decode_config
  rw [decode_config_buf_strip]
  have hunf : decode_config_buf (stripInput config.strip_whitespace input)
      ⟨config.char_set, config.pad, false, config.line_wrap⟩ [] =
      (match decodeFastLoop config.char_set.decode_table
          (stripInput config.strip_whitespace input)
          (length_of_full_chunks (stripInput config.strip_whitespace input).length)
          ([] ++ List.replicate
            (length_of_full_chunks (stripInput config.strip_whitespace input).length / 8 * 6 + 2) 0)
          (List.length ([] : List Nat)) 0 with
        | .error (bbe, bad) => (bbe, some (.InvalidByte bad
            ((stripInput config.strip_whitespace input).getD bad 0)))
        | .ok (bb1, _) =>
          let bb2 := bb1.take (bb1.length - 2)
          match decodeTailLoop config.char_set.decode_table
              (length_of_full_chunks (stripInput config.strip_whitespace input).length)
              ((stripInput config.strip_whitespace input).drop
                (length_of_full_chunks (stripInput config.strip_whitespace input).length))
              0 0 0 0 0 with
          | .error e => (bb2, some e)
          | .ok (leftover, morsels) =>
            match morsel_bits morsels with
            | none => (bb2, some .InvalidLength)
            | some bits => (bb2 ++ emitLoop leftover 0 bits, none)) := rfl
  rw [hunf, hlofc]
  rw [decodeFastLoop_base _ _ _ _ _ _ (by omega)]
  simp only [List.nil_append, List.length_nil, List.drop_zero, Nat.zero_div,
    Nat.zero_mul, Nat.zero_add, List.length_replicate]
  rcases h : decodeTailLoop config.char_set.decode_table 0
      (stripInput config.strip_whitespace input) 0 0 0 0 0 with e | ⟨lo, m⟩
  · rfl
  · rcases hm : morsel_bits m with _ | bits
    · simp only []
      rw [hm]
    · simp only []
      rw [hm]
      rfl

theorem decodeFastLoop_cases (t : Nat → Nat) (ib : List Nat) (lofc : Nat)
    (bb : List Nat) (oi ii : Nat) (hii : ii < lofc) :
    (∃ w, decodeFastLoop t ib lofc bb oi ii =
        decodeFastLoop t ib lofc (writeSeq bb oi w) (oi + 6) (ii + 8)) ∨
    (∃ k, k < 8 ∧ decodeFastLoop t ib lofc bb oi ii = .error (bb, ii + k)) := by
  by_cases h1 : t (read_u64_be (ib.drop ii) >>> 56) = INVALID_VALUE
  · refine .inr ⟨0, by omega, ?_⟩
    conv_lhs => rw [decodeFastLoop]
    rw [if_pos hii]
    simp only []
    rw [if_pos h1]
    rfl
  by_cases h2 : t ((read_u64_be (ib.drop ii) >>> 48) &&& 255) = INVALID_VALUE
  · refine .inr ⟨1, by omega, ?_⟩
    conv_lhs => rw [decodeFastLoop]
    rw [if_pos hii]
    simp only []
    rw [if_neg h1, if_pos h2]
  by_cases h3 : t ((read_u64_be (ib.drop ii) >>> 40) &&& 255) = INVALID_VALUE
  · refine .inr ⟨2, by omega, ?_⟩
    conv_lhs => rw [decodeFastLoop]
    rw [if_pos hii]
    simp only []
    rw [if_neg h1, if_neg h2, if_pos h3]
  by_cases h4 : t ((read_u64_be (ib.drop ii) >>> 32) &&& 255) = INVALID_VALUE
  · refine .inr ⟨3, by omega, ?_⟩
    conv_lhs => rw [decodeFastLoop]
    rw [if_pos hii]
    simp only []
    rw [if_neg h1, if_neg h2, if_neg h3, if_pos h4]
  by_cases h5 : t ((read_u64_be (ib.drop ii) >>> 24) &&& 255) = INVALID_VALUE
  · refine .inr ⟨4, by omega, ?_⟩
    conv_lhs => rw [decodeFastLoop]
    rw [if_pos hii]
    simp only []
    rw [if_neg h1, if_neg h2, if_neg h3, if_neg h4, if_pos h5]
  by_cases h6 : t ((read_u64_be (ib.drop ii) >>> 16) &&& 255) = INVALID_VALUE
  · refine .inr ⟨5, by omega, ?_⟩
    conv_lhs => rw [decodeFastLoop]
    rw [if_pos hii]
    simp only []
    rw [if_neg h1, if_neg h2, if_neg h3, if_neg h4, if_neg h5, if_pos h6]
  by_cases h7 : t ((read_u64_be (ib.drop ii) >>> 8) &&& 255) = INVALID_VALUE
  · refine .inr ⟨6, by omega, ?_⟩
    conv_lhs => rw [decodeFastLoop]
    rw [if_pos hii]
    simp only []
    rw [if_neg h1, if_neg h2, if_neg h3, if_neg h4, if_neg h5, if_neg h6, if_pos h7]
  by_cases h8 : t (read_u64_be (ib.drop ii) &&& 255) = INVALID_VALUE
  · refine .inr ⟨7, by omega, ?_⟩
    conv_lhs => rw [decodeFastLoop]
    rw [if_pos hii]
    simp only []
    rw [if_neg h1, if_neg h2, if_neg h3, if_neg h4, if_neg h5, if_neg h6, if_neg h7, if_pos h8]
  refine .inl ⟨u64_be_bytes (t (read_u64_be (ib.drop ii) >>> 56) <<< 58 ||| t ((read_u64_be (ib.drop ii) >>> 48) &&& 255) <<< 52 ||| t ((read_u64_be (ib.drop ii) >>> 40) &&& 255) <<< 46 ||| t ((read_u64_be (ib.drop ii) >>> 32) &&& 255) <<< 40 ||| t ((read_u64_be (ib.drop ii) >>> 24) &&& 255) <<< 34 ||| t ((read_u64_be (ib.drop ii) >>> 16) &&& 255) <<< 28 ||| t ((read_u64_be (ib.drop ii) >>> 8) &&& 255) <<< 22 ||| t (read_u64_be (ib.drop ii) &&& 255) <<< 16), ?_⟩
  conv_lhs => rw [decodeFastLoop]
  rw [if_pos hii]
  simp only []
  rw [if_neg h1, if_neg h2, if_neg h3, if_neg h4, if_neg h5, if_neg h6, if_neg h7, if_neg h8]

theorem decodeFastLoop_frame (t : Nat → Nat) (ib : List Nat) (lofc : Nat) :
    ∀ (fuel : Nat) (bb : List Nat) (oi ii m : Nat), lofc - ii ≤ fuel → m ≤ oi →
      ∀ (l : List Nat) (x : Nat),
        (decodeFastLoop t ib lofc bb oi ii = .ok (l, x) ∨
         decodeFastLoop t ib lofc bb oi ii = .error (l, x)) →
        l.take m = bb.take m ∧ l.length = bb.length := by
  intro fuel
  induction fuel with
  | zero =>
    intro bb oi ii m hf hm l x hlx
    rw [decodeFastLoop_base t ib bb lofc oi ii (by omega)] at hlx
    rcases hlx with hlx | hlx
    · rw [Except.ok.injEq, Prod.mk.injEq] at hlx
      rw [← hlx.1]
      exact ⟨rfl, rfl⟩
    · exact Except.noConfusion hlx
  | succ n ih =>
    intro bb oi ii m hf hm l x hlx
    by_cases hii : ii < lofc
    · rcases decodeFastLoop_cases t ib lofc bb oi ii hii with ⟨w, hw⟩ | ⟨k, hk, he⟩
      · rw [hw] at hlx
        have hr := ih (writeSeq bb oi w) (oi + 6) (ii + 8) m (by omega) (by omega)
          l x hlx
        constructor
        · rw [hr.1, writeSeq_take_of_le _ _ _ _ hm]
        · rw [hr.2, writeSeq_length]
      · rw [he] at hlx
        rcases hlx with hlx | hlx
        · exact Except.noConfusion hlx
        · rw [Except.error.injEq, Prod.mk.injEq] at hlx
          rw [← hlx.1]
          exact ⟨rfl, rfl⟩
    · rw [decodeFastLoop_base t ib bb lofc oi ii hii] at hlx
      rcases hlx with hlx | hlx
      · rw [Except.ok.injEq, Prod.mk.injEq] at hlx
        rw [← hlx.1]
        exact ⟨rfl, rfl⟩
      · exact Except.noConfusion hlx

theorem decode_config_buf_frame (input : List Nat) (config : Config)
    (buffer : List Nat) :
    (decode_config_buf input config buffer).1.take buffer.length = buffer := by
  have hunf : decode_config_buf input config buffer =
      (match decodeFastLoop config.char_set.decode_table
          (stripInput config.strip_whitespace input)
          (length_of_full_chunks (stripInput config.strip_whitespace input).length)
          (buffer ++ List.replicate
            (length_of_full_chunks (stripInput config.strip_whitespace input).length / 8 * 6 + 2) 0)
          buffer.length 0 with
        | .error (bbe, bad) => (bbe, some (.InvalidByte bad
            ((stripInput config.strip_whitespace input).getD bad 0)))
        | .ok (bb1, _) =>
          let bb2 := bb1.take (bb1.length - 2)
          match decodeTailLoop config.char_set.decode_table
              (length_of_full_chunks (stripInput config.strip_whitespace input).length)
              ((stripInput config.strip_whitespace input).drop
                (length_of_full_chunks (stripInput config.strip_whitespace input).length))
              0 0 0 0 0 with
          | .error e => (bb2, some e)
          | .ok (leftover, morsels) =>
            match morsel_bits morsels with
            | none => (bb2, some .InvalidLength)
            | some bits => (bb2 ++ emitLoop leftover 0 bits, none)) := rfl
  rw [hunf]
  set ib := stripInput config.strip_whitespace input with hib
  set lofc := length_of_full_chunks ib.length with hlofc
  set bb0 := buffer ++ List.replicate (lofc / 8 * 6 + 2) 0 with hbb0
  have hbb0take : bb0.take buffer.length = buffer := by
    rw [hbb0, List.take_left]
  have hbb0len : bb0.length = buffer.length + (lofc / 8 * 6 + 2) := by
    rw [hbb0, List.length_append, List.length_replicate]
  rcases hres : decodeFastLoop config.char_set.decode_table ib lofc bb0
      buffer.length 0 with ⟨bbe, bad⟩ | ⟨bb1, oi⟩
  · have hfr := decodeFastLoop_frame config.char_set.decode_table ib lofc lofc bb0
      buffer.length 0 buffer.length (by omega) (by omega) bbe bad (Or.inr hres)
    simp only []
    rw [hfr.1, hbb0take]
  · have hfr := decodeFastLoop_frame config.char_set.decode_table ib lofc lofc bb0
      buffer.length 0 buffer.length (by omega) (by omega) bb1 oi (Or.inl hres)
    simp only []
    have hbb2 : (bb1.take (bb1.length - 2)).take buffer.length = buffer := by
      rw [List.take_take, min_eq_left (by
        rw [hfr.2, hbb0len]
        omega), hfr.1, hbb0take]
    rcases decodeTailLoop config.char_set.decode_table lofc (ib.drop lofc)
        0 0 0 0 0 with e | ⟨leftover, morsels⟩
    · exact hbb2
    · simp only []
      rcases morsel_bits morsels with _ | bits
      · exact hbb2
      · show (List.take (bb1.length - 2) bb1 ++
          emitLoop leftover 0 bits).take buffer.length = buffer
        rw [List.take_append_of_le_length (by
          rw [List.length_take, hfr.2, hbb0len]
          omega)]
        exact hbb2

/-! ### The claims -/

/-- C1 (amended): round trip `decode_config (encode_config data C) C = .ok data`
holds for every configuration whose settings are consistent: either no line
wrapping is performed, or whitespace is stripped on decode.  (The claim as
stated over every configuration is false: with wrapping on and
`strip_whitespace` off the inserted line endings are invalid decode bytes,
see the counterexample.) -/
theorem claim_C1 (config : Config) (data : List Nat)
    (h256 : ∀ b ∈ data, b < 256)
    (hok : config.line_wrap = .NoWrap ∨ config.strip_whitespace = true) :
    decode_config (encode_config data config) config = .ok data :=
  roundtrip_master config data h256 hok

theorem claim_C1_witness :
    (∀ b ∈ [102, 111, 111], b < 256) ∧
    decode_config (encode_config [102, 111, 111] MIME) MIME =
      .ok [102, 111, 111] :=
  ⟨by decide, claim_C1 MIME [102, 111, 111] (by decide) (Or.inr rfl)⟩

/-- C1, counterexample to the claim as frozen: the configuration wrapping at
width 1 with LF endings and no whitespace stripping does not round trip even
on the three-byte input `[0, 0, 0]`: the decoder rejects the inserted line
ending byte 10 at offset 1. -/
theorem claim_C1_cex :
    decode_config
        (encode_config [0, 0, 0] ⟨.Standard, false, false, .Wrap 1 .LF⟩)
        ⟨.Standard, false, false, .Wrap 1 .LF⟩ =
      .error (.InvalidByte 1 10) := by
  rw [decode_config_small _ _ (by decide)]
  rfl

/-- C2: `encode_to_slice` produces exactly the chunked base64 text `encB64`
of the input; its length is `4*(L/3) + r` with `r` = 0, 2, 3 for
`L % 3` = 0, 1, 2; every output byte is a lookup `t v` with `v < 64`;
and `add_padding` appends exactly `(3 - L % 3) % 3` pad bytes 61 (`=`). -/
theorem claim_C2 (input : List Nat) (t : Nat → Nat)
    (h256 : ∀ b ∈ input, b < 256) :
    encode_to_slice input t = encB64 t input ∧
    (encode_to_slice input t).length =
      4 * (input.length / 3) + encRemChars (input.length % 3) ∧
    encRemChars 0 = 0 ∧ encRemChars 1 = 2 ∧ encRemChars 2 = 3 ∧
    (∀ c ∈ encode_to_slice input t, ∃ v, v < 64 ∧ c = t v) ∧
    add_padding input.length =
      List.replicate ((3 - input.length % 3) % 3) 61 := by
  have he := encode_to_slice_eq input t h256
  refine ⟨he, ?_, rfl, rfl, rfl, ?_, rfl⟩
  · rw [he, encB64_length]
  · rw [he]
    exact encB64_mem t input h256

theorem claim_C2_witness :
    (∀ b ∈ [102, 111], b < 256) ∧
    (encode_to_slice [102, 111] CharacterSet.Standard.encode_table).length = 3 :=
  ⟨by decide, by
    rw [(claim_C2 [102, 111] CharacterSet.Standard.encode_table (by decide)).2.1]
    decide⟩

/-- C3: decode reports `InvalidByte` at absolute offsets within the stripped
input.  With a well-formed full-chunk region (`data`, a multiple of 6 bytes,
encoded as `4*(L/3)` characters) and a trailing chunk: (a) a byte that is
neither pad nor in the alphabet, after valid characters, is reported at its
own offset with its own value; (b) a pad byte at quad position 0 or 1 of the
trailing chunk is reported at its own offset; (c) a non-pad byte after
accepted padding is reported at the offset of the first padding byte with
byte 61 (`=`).  Concretely `decode "A===" = InvalidByte 1 '='` and
`decode "Zg#=" = InvalidByte 2 '#'`. -/
theorem claim_C3 :
    (∀ (input : List Nat) (config : Config) (data pre rest : List Nat) (b : Nat),
      (∀ x ∈ data, x < 256) → data.length % 6 = 0 →
      pre.length + 1 + rest.length ≤ 8 →
      stripInput config.strip_whitespace input =
        encB64 config.char_set.encode_table data ++ (pre ++ b :: rest) →
      (∀ c ∈ pre, ¬ c = 61 ∧ ¬ config.char_set.decode_table c = INVALID_VALUE) →
      ¬ b = 61 → config.char_set.decode_table b = INVALID_VALUE →
      decode_config input config =
        .error (.InvalidByte (4 * (data.length / 3) + pre.length) b)) ∧
    (∀ (input : List Nat) (config : Config) (data pre rest : List Nat),
      (∀ x ∈ data, x < 256) → data.length % 6 = 0 →
      pre.length + 1 + rest.length ≤ 8 →
      stripInput config.strip_whitespace input =
        encB64 config.char_set.encode_table data ++ (pre ++ 61 :: rest) →
      (∀ c ∈ pre, ¬ c = 61 ∧ ¬ config.char_set.decode_table c = INVALID_VALUE) →
      pre.length % 4 < 2 →
      decode_config input config =
        .error (.InvalidByte (4 * (data.length / 3) + pre.length) 61)) ∧
    (∀ (input : List Nat) (config : Config) (data pre pads rest : List Nat)
        (b : Nat),
      (∀ x ∈ data, x < 256) → data.length % 6 = 0 →
      pre.length + pads.length + 1 + rest.length ≤ 8 →
      stripInput config.strip_whitespace input =
        encB64 config.char_set.encode_table data ++ (pre ++ (pads ++ b :: rest)) →
      (∀ c ∈ pre, ¬ c = 61 ∧ ¬ config.char_set.decode_table c = INVALID_VALUE) →
      pads ≠ [] → (∀ c ∈ pads, c = 61) →
      (∀ k, k < pads.length → ¬ (pre.length + k) % 4 < 2) →
      ¬ b = 61 →
      decode_config input config =
        .error (.InvalidByte (4 * (data.length / 3) + pre.length) 61)) ∧
    decode [65, 61, 61, 61] = .error (.InvalidByte 1 61) ∧
    decode [90, 103, 35, 61] = .error (.InvalidByte 2 35) := by
  refine ⟨?_, ?_, ?_, ?_, ?_⟩
  · intro input config data pre rest b h256 hd6 hlen hib hpre hb hbinv
    refine decode_tail_error_master input config data (pre ++ b :: rest) h256 hd6
      (by simp only [List.length_append, List.length_cons]; omega)
      (by simp only [List.length_append, List.length_cons]; omega) hib _ ?_
    obtain ⟨lo', hrun⟩ := tail_run_valid config.char_set.decode_table
      (4 * (data.length / 3)) pre (b :: rest) 0 0 0 0 hpre
    rw [hrun, tail_err_invalid config.char_set.decode_table _ b rest _ lo' _ 0
      hb hbinv]
    norm_num
  · intro input config data pre rest h256 hd6 hlen hib hpre hq
    refine decode_tail_error_master input config data (pre ++ 61 :: rest) h256 hd6
      (by simp only [List.length_append, List.length_cons]; omega)
      (by simp only [List.length_append, List.length_cons]; omega) hib _ ?_
    obtain ⟨lo', hrun⟩ := tail_run_valid config.char_set.decode_table
      (4 * (data.length / 3)) pre (61 :: rest) 0 0 0 0 hpre
    rw [hrun, tail_err_earlypad config.char_set.decode_table _ rest _ lo' _ 0 0
      (by omega)]
    norm_num
  · intro input config data pre pads rest b h256 hd6 hlen hib hpre hpne hpads hq hb
    refine decode_tail_error_master input config data (pre ++ (pads ++ b :: rest))
      h256 hd6 (by simp only [List.length_append, List.length_cons]; omega)
      (by simp only [List.length_append, List.length_cons]; omega) hib _ ?_
    obtain ⟨lo', hrun⟩ := tail_run_valid config.char_set.decode_table
      (4 * (data.length / 3)) pre (pads ++ b :: rest) 0 0 0 0 hpre
    rw [hrun]
    rcases pads with _ | ⟨p0, pads1⟩
    · exact absurd rfl hpne
    have hp0 : p0 = 61 := hpads p0 (by simp)
    subst hp0
    rw [List.cons_append]
    simp only [decodeTailLoop, if_true]
    rw [if_neg (by simpa using hq 0 (by simp))]
    norm_num
    rw [tail_run_pads_pos config.char_set.decode_table _ pads1 (b :: rest)
      (pre.length + 1) lo' pre.length 1 pre.length (by omega)
      (fun c hc => hpads c (by simp [hc]))
      (fun k hk => by
        have := hq (k + 1) (by simp only [List.length_cons]; omega)
        rw [show pre.length + 1 + k = pre.length + (k + 1) from by omega]
        exact this)]
    rw [tail_err_after_pad config.char_set.decode_table _ b rest _ lo' _ _ _
      hb (by omega)]
  · have h := decode_config_small [65, 61, 61, 61] STANDARD (by decide)
    unfold decode
    rw [h]
    rfl
  · have h := decode_config_small [90, 103, 35, 61] STANDARD (by decide)
    unfold decode
    rw [h]
    rfl

/-- C4: in the trailing-chunk scalar pass the non-pad morsel count maps to
appended bit count as {0→0, 2→8, 3→16, 4→24, 6→32, 7→40, 8→48}, counts 1
and 5 fail with `InvalidLength`; the emission loop pushes 8 bits at a time
from the most significant end of the big-endian register
(`leftover >>> (56 - 8*i) % 256` for i = 0, 1, ...). -/
theorem claim_C4 :
    (morsel_bits 0 = some 0 ∧ morsel_bits 2 = some 8 ∧ morsel_bits 3 = some 16 ∧
     morsel_bits 4 = some 24 ∧ morsel_bits 6 = some 32 ∧ morsel_bits 7 = some 40 ∧
     morsel_bits 8 = some 48 ∧ morsel_bits 1 = none ∧ morsel_bits 5 = none) ∧
    (∀ (leftover k : Nat), emitLoop leftover 0 (8 * k) =
      (List.range k).map (fun i => (leftover >>> (56 - 8 * i)) % 256)) ∧
    decode [65] = .error .InvalidLength ∧
    decode [65, 65, 65, 65, 65] = .error .InvalidLength := by
  refine ⟨by decide, ?_, ?_, ?_⟩
  · intro leftover k
    have h := emitLoop_range k 0 leftover
    simpa using h
  · have h := decode_config_small [65] STANDARD (by decide)
    unfold decode
    rw [h]
    rfl
  · have h := decode_config_small [65, 65, 65, 65, 65] STANDARD (by decide)
    unfold decode
    rw [h]
    rfl

/-- C5: the decode fast path covers exactly `length_of_full_chunks` bytes of
the stripped input: when the length is a positive multiple of 8 the last
full 8-byte chunk is excluded (the excluded suffix has length 8), otherwise
exactly the last `length % 8` bytes (1 to 7) are excluded; the excluded
count is what the trailing scalar pass receives (`decode_config_buf`
dispatches `ib.drop lofc` to `decodeTailLoop`, and the fast loop runs on the
`8 ∣ lofc` byte prefix). -/
theorem claim_C5 (input : List Nat) (config : Config) :
    (0 < (stripInput config.strip_whitespace input).length → (stripInput config.strip_whitespace input).length % 8 = 0 →
      length_of_full_chunks (stripInput config.strip_whitespace input).length = (stripInput config.strip_whitespace input).length - 8 ∧
      ((stripInput config.strip_whitespace input).drop (length_of_full_chunks (stripInput config.strip_whitespace input).length)).length = 8) ∧
    ((stripInput config.strip_whitespace input).length % 8 ≠ 0 →
      length_of_full_chunks (stripInput config.strip_whitespace input).length = (stripInput config.strip_whitespace input).length - (stripInput config.strip_whitespace input).length % 8 ∧
      ((stripInput config.strip_whitespace input).drop (length_of_full_chunks (stripInput config.strip_whitespace input).length)).length = (stripInput config.strip_whitespace input).length % 8 ∧
      1 ≤ (stripInput config.strip_whitespace input).length % 8 ∧ (stripInput config.strip_whitespace input).length % 8 ≤ 7) ∧
    8 ∣ length_of_full_chunks (stripInput config.strip_whitespace input).length ∧
    decode_config_buf input config [] =
      (match decodeFastLoop config.char_set.decode_table (stripInput config.strip_whitespace input)
          (length_of_full_chunks (stripInput config.strip_whitespace input).length)
          (List.replicate (length_of_full_chunks (stripInput config.strip_whitespace input).length / 8 * 6 + 2) 0) 0 0 with
        | .error (bbe, bad) => (bbe, some (.InvalidByte bad ((stripInput config.strip_whitespace input).getD bad 0)))
        | .ok (bb1, _) =>
          let bb2 := bb1.take (bb1.length - 2)
          match decodeTailLoop config.char_set.decode_table (length_of_full_chunks (stripInput config.strip_whitespace input).length)
              ((stripInput config.strip_whitespace input).drop (length_of_full_chunks (stripInput config.strip_whitespace input).length)) 0 0 0 0 0 with
          | .error e => (bb2, some e)
          | .ok (leftover, morsels) =>
            match morsel_bits morsels with
            | none => (bb2, some .InvalidLength)
            | some bits => (bb2 ++ emitLoop leftover 0 bits, none)) := by
  refine ⟨?_, ?_, ?_, rfl⟩
  · intro h0 h8
    unfold length_of_full_chunks
    rw [if_pos h8, List.length_drop]
    refine ⟨rfl, ?_⟩
    omega
  · intro h8
    unfold length_of_full_chunks
    rw [if_neg h8, List.length_drop]
    refine ⟨rfl, ?_, ?_, ?_⟩ <;> omega
  · unfold length_of_full_chunks
    split_ifs with h <;> omega

/-- C6: `line_wrap_parameters`: a length at most the line width needs no
endings and keeps its length; a length that is a positive exact multiple of
the width gets `length/width - 1` endings with a full last line; otherwise
`length/width` endings with last line `length % width`; for length 100,
width 20, LF: 4 ended lines, last line length 20, total length 104. -/
theorem claim_C6 (n w : Nat) (e : LineEnding) :
    (n ≤ w → (line_wrap_parameters n w e).lines_with_endings = 0 ∧
      (line_wrap_parameters n w e).total_len = n ∧
      (line_wrap_parameters n w e).last_line_len = n) ∧
    (0 < w → w < n → n % w = 0 →
      (line_wrap_parameters n w e).lines_with_endings = n / w - 1 ∧
      (line_wrap_parameters n w e).last_line_len = w) ∧
    (0 < w → w < n → n % w ≠ 0 →
      (line_wrap_parameters n w e).lines_with_endings = n / w ∧
      (line_wrap_parameters n w e).last_line_len = n % w) ∧
    (line_wrap_parameters 100 20 .LF).lines_with_endings = 4 ∧
    (line_wrap_parameters 100 20 .LF).last_line_len = 20 ∧
    (line_wrap_parameters 100 20 .LF).total_len = 104 ∧
    (line_wrap_parameters 100 20 .LF).total_line_endings_len = 4 := by
  refine ⟨?_, ?_, ?_, by decide, by decide, by decide, by decide⟩
  · intro h
    unfold line_wrap_parameters
    rw [if_pos h]
    exact ⟨rfl, rfl, rfl⟩
  · intro hw hn h0
    unfold line_wrap_parameters
    rw [if_neg (by omega)]
    simp only []
    rw [if_neg (by omega)]
    exact ⟨rfl, rfl⟩
  · intro hw hn h0
    unfold line_wrap_parameters
    rw [if_neg (by omega)]
    simp only []
    rw [if_pos (by omega)]
    exact ⟨rfl, rfl⟩

theorem not_ws_keeps (a : Nat) (h : whitespaceBytes.contains a = false) :
    (!(a == 13 || a == 10)) = true := by
  have h13 : a ≠ 13 := by
    intro ha
    subst ha
    exact absurd h (by decide)
  have h10 : a ≠ 10 := by
    intro ha
    subst ha
    exact absurd h (by decide)
  simp [h13, h10]

theorem mime_filter_eq (data : List Nat) (h256 : ∀ b ∈ data, b < 256) :
    (encode_config data MIME).filter (fun b => !(b == 13 || b == 10)) =
      encode_config data STANDARD := by
  have hm := encode_config_buf_eq data MIME [] h256
  have hs := encode_config_buf_eq data STANDARD [] h256
  simp only [MIME, STANDARD, List.nil_append, if_true, LineEnding.bytes] at hm hs
  unfold encode_config
  simp only [MIME, STANDARD]
  rw [hm, hs]
  rw [wrapStream_filter 76 [13, 10] (fun b => !(b == 13 || b == 10)) (by decide)
    _ _ (le_refl _)]
  apply List.filter_eq_self.mpr
  intro a ha
  rw [List.mem_append] at ha
  rcases ha with ha | ha
  · obtain ⟨v, hv, rfl⟩ := encB64_mem _ data h256 a ha
    exact not_ws_keeps _ (encode_table_not_ws _ v hv)
  · unfold add_padding at ha
    rw [List.eq_of_mem_replicate ha]
    decide

/-- C7: the in-place `line_wrap` reflow preserves the character stream: the
wrapped region equals the unwrapped content split into width-sized lines,
each full line followed by the ending and the final line bare
(`wrapStream`); and deleting the CR/LF bytes from `encode_config data MIME`
yields exactly `encode_config data STANDARD`, the unwrapped standard
encoding. -/
theorem claim_C7 (buffer : List Nat) (n w : Nat) (e : LineEnding)
    (data : List Nat)
    (hbl : (line_wrap_parameters n w e).total_len ≤ buffer.length)
    (h256 : ∀ b ∈ data, b < 256) :
    (line_wrap buffer n w e).2.take (line_wrap_parameters n w e).total_len =
      wrapStream w e.bytes (buffer.take n) ∧
    (encode_config data MIME).filter (fun b => !(b == 13 || b == 10)) =
      encode_config data STANDARD :=
  ⟨(line_wrap_spec buffer n w e hbl).1, mime_filter_eq data h256⟩

theorem claim_C7_witness :
    (line_wrap_parameters 4 1 .LF).total_len ≤ ([1, 2, 3, 4, 0, 0, 0] : List Nat).length ∧
    (∀ b ∈ [102], b < 256) ∧
    ((line_wrap [1, 2, 3, 4, 0, 0, 0] 4 1 .LF).2.take
        (line_wrap_parameters 4 1 .LF).total_len =
      wrapStream 1 LineEnding.LF.bytes (([1, 2, 3, 4, 0, 0, 0] : List Nat).take 4) ∧
     (encode_config [102] MIME).filter (fun b => !(b == 13 || b == 10)) =
      encode_config [102] STANDARD) :=
  ⟨by decide, by decide,
    claim_C7 [1, 2, 3, 4, 0, 0, 0] 4 1 .LF [102] (by decide) (by decide)⟩

/-- C8: decoding never consults `Config.pad`: two configurations differing
only in the pad flag produce identical results from `decode_config_buf` and
`decode_config` on every input; in particular the unpadded input `"Zg"`
decodes to `"f"` under the padded `STANDARD` configuration. -/
theorem claim_C8 :
    (∀ (input : List Nat) (c1 c2 : Config) (buffer : List Nat),
      c1.char_set = c2.char_set → c1.strip_whitespace = c2.strip_whitespace →
      c1.line_wrap = c2.line_wrap →
      decode_config_buf input c1 buffer = decode_config_buf input c2 buffer ∧
      decode_config input c1 = decode_config input c2) ∧
    decode [90, 103] = .ok [102] := by
  constructor
  · intro input c1 c2 buffer hcs hsw hlw
    obtain ⟨cs1, p1, sw1, lw1⟩ := c1
    obtain ⟨cs2, p2, sw2, lw2⟩ := c2
    simp only [] at hcs hsw hlw
    subst hcs
    subst hsw
    subst hlw
    exact ⟨rfl, rfl⟩
  · unfold decode
    rw [decode_config_small _ _ (by decide)]
    show Except.ok (emitLoop ((25 <<< 58) ||| (32 <<< 52)) 0 8) = Except.ok [102]
    rw [emitLoop_one]
    rfl

/-- C9: neither `encode_config_buf` nor `decode_config_buf` disturbs the
bytes already in the caller's buffer: on every outcome the returned buffer
begins with the buffer as passed in (all writes land at or after the entry
length). -/
theorem claim_C9 (input : List Nat) (config : Config) (buf buffer : List Nat)
    (h256 : ∀ b ∈ input, b < 256) :
    (encode_config_buf input config buf).take buf.length = buf ∧
    (decode_config_buf input config buffer).1.take buffer.length = buffer := by
  constructor
  · rw [encode_config_buf_eq input config buf h256]
    exact List.take_left buf _
  · exact decode_config_buf_frame input config buffer

theorem claim_C9_witness :
    (∀ b ∈ [102, 111, 111], b < 256) ∧
    ((encode_config_buf [102, 111, 111] STANDARD [1, 2]).take
        ([1, 2] : List Nat).length = [1, 2] ∧
     (decode_config_buf [102, 111, 111] STANDARD [3]).1.take
        ([3] : List Nat).length = [3]) :=
  ⟨by decide, claim_C9 [102, 111, 111] STANDARD [1, 2] [3] (by decide)⟩

/-- C10: every byte `encode_config_buf` appends past the caller's buffer is
an entry of the active encode table (a value at an index below 64), the pad
byte 61 (`=`), CR 13, or LF 10 — and in every case below 128, i.e. ASCII,
so the appended bytes are valid UTF-8. -/
theorem claim_C10 (input : List Nat) (config : Config) (buf : List Nat)
    (h256 : ∀ b ∈ input, b < 256) :
    ∀ b ∈ encode_config_buf input config buf,
      b ∈ buf ∨
        (((∃ v, v < 64 ∧ b = config.char_set.encode_table v) ∨
          b = 61 ∨ b = 13 ∨ b = 10) ∧ b < 128) := by
  rw [encode_config_buf_eq input config buf h256]
  intro b hb
  rw [List.mem_append] at hb
  rcases hb with hb | hb
  · exact .inl hb
  right
  have hcontent : ∀ c ∈ encB64 config.char_set.encode_table input ++
      (if config.pad then add_padding input.length else []),
      ((∃ v, v < 64 ∧ c = config.char_set.encode_table v) ∨
        c = 61 ∨ c = 13 ∨ c = 10) ∧ c < 128 := by
    intro c hc
    rw [List.mem_append] at hc
    rcases hc with hc | hc
    · obtain ⟨v, hv, rfl⟩ := encB64_mem _ input h256 c hc
      exact ⟨.inl ⟨v, hv, rfl⟩, encode_table_ascii config.char_set v hv⟩
    · have : c = 61 := by
        rcases hp : config.pad with _ | _
        · rw [hp] at hc
          simp at hc
        · rw [hp] at hc
          rw [if_pos rfl] at hc
          unfold add_padding at hc
          exact List.eq_of_mem_replicate hc
      subst this
      exact ⟨.inr (.inl rfl), by omega⟩
  rcases hlw : config.line_wrap with _ | ⟨w, e⟩
  · rw [hlw] at hb
    exact hcontent b hb
  · rw [hlw] at hb
    rcases wrapStream_mem w e.bytes _ _ (le_refl _) b hb with h | h
    · exact hcontent b h
    · rcases e with _ | _
      · simp only [LineEnding.bytes, List.mem_singleton] at h
        subst h
        exact ⟨.inr (.inr (.inr rfl)), by omega⟩
      · simp only [LineEnding.bytes, List.mem_cons, List.mem_singleton,
          List.not_mem_nil, or_false] at h
        rcases h with h | h
        · subst h
          exact ⟨.inr (.inr (.inl rfl)), by omega⟩
        · subst h
          exact ⟨.inr (.inr (.inr rfl)), by omega⟩

theorem claim_C10_witness :
    (∀ b ∈ [102], b < 256) ∧
    (∀ b ∈ encode_config_buf [102] MIME [7],
      b ∈ [7] ∨
        (((∃ v, v < 64 ∧ b = MIME.char_set.encode_table v) ∨
          b = 61 ∨ b = 13 ∨ b = 10) ∧ b < 128)) :=
  ⟨by decide, claim_C10 [102] MIME [7] (by decide)⟩

end B64
